import Mathlib

/-!
# Transfer-route optimiser: embedding of `src/main.cpp`

The C++ program prices money transfers between banks over tiered commission
schedules and picks the cheapest direct or one-intermediary route, trying equal
splits into 1..10 parts on every leg.

Modelling conventions

* `double` is modelled by `ℚ` (exact arithmetic); rounding, infinities and NaN
  are outside this first model.  `std::numeric_limits<double>::max()` is the
  rational `DBL_MAX`.  Results that depend on rounding are settled on the second
  embedding of the numeric path, the namespace `IEEE`, where every operation
  rounds as binary64 does.
* `std::vector<T>` is `List T`.  `std::map<std::string, Bank>` is the list of its
  `(key, value)` pairs in iteration order (ascending key, keys distinct);
  `MapOrdered` states that shape.
* Code that can leave the normal control flow returns `Except Fault _`:
  `std::map::at` on an absent key throws `std::out_of_range`, and
  `std::vector::back` on an empty vector has no defined behaviour.
-/

namespace Transfer

/-! ## Data model (main.cpp 12-60) -/

/-- One band of a commission schedule (`struct Tier`). -/
structure Tier where
  threshold : ℚ
  fixedFee : ℚ
  percent : ℚ
deriving DecidableEq

/-- Ways in which the C++ code leaves its normal control flow. -/
inductive Fault where
  /-- The call `std::map::at` on an absent key: throws `std::out_of_range`. -/
  | outOfRange
  /-- The call `std::vector::back` on an empty vector: undefined behaviour, no value
  and no exception is specified. -/
  | undefinedBack
deriving DecidableEq

/-- The value of `std::numeric_limits<double>::max()`, `(2^53 - 1) * 2^971`. -/
def DBL_MAX : ℚ := (2 ^ 53 - 1) * 2 ^ 971

/-- A commission schedule (`struct PiecewiseCommission`). -/
structure PiecewiseCommission where
  tiers : List Tier
deriving DecidableEq

/-- The range-for loop of `PiecewiseCommission::calculate` (main.cpp 22-26):
returns from the first tier with `amount <= tier.threshold`; `none` when the loop
runs to its end. -/
def PiecewiseCommission.calculateLoop (amount : ℚ) : List Tier → Option ℚ
  | [] => none
  | tier :: rest =>
    if amount ≤ tier.threshold then some (tier.fixedFee + amount * tier.percent)
    else calculateLoop amount rest

/-- The call `tiers.back()`: the last element, undefined on an empty vector. -/
def back (tiers : List Tier) : Except Fault Tier :=
  match tiers.getLast? with
  | some t => .ok t
  | none => .error .undefinedBack

/-- The method `PiecewiseCommission::calculate` (main.cpp 21-29). -/
def PiecewiseCommission.calculate (self : PiecewiseCommission) (amount : ℚ) :
    Except Fault ℚ :=
  match PiecewiseCommission.calculateLoop amount self.tiers with
  | some fee => .ok fee
  | none =>
    match back self.tiers with
    | .ok lastTier => .ok (lastTier.fixedFee + amount * lastTier.percent)
    | .error e => .error e

/-- A bank (`struct Bank`). -/
structure Bank where
  name : String
  country : String
  inputCommission : PiecewiseCommission
  outputCommission : PiecewiseCommission
  correspondents : List String
deriving DecidableEq

/-- The range-for loop of `Bank::hasCommonCorrespondent` (main.cpp 40-45) over the
remaining correspondents of the receiver object; `std::find(...) != end()` is list
membership. -/
def hasCommonLoop (otherCorrespondents : List String) : List String → Bool
  | [] => false
  | c :: rest =>
    if c ∈ otherCorrespondents then true else hasCommonLoop otherCorrespondents rest

/-- The method `Bank::hasCommonCorrespondent` (main.cpp 39-46). -/
def Bank.hasCommonCorrespondent (self other : Bank) : Bool :=
  hasCommonLoop other.correspondents self.correspondents

/-- One border-fee row (`struct BorderCommission`). -/
structure BorderCommission where
  fromCountry : String
  toCountry : String
  fee : ℚ
deriving DecidableEq

/-- A priced route (`struct RouteOption`); `bestSplit` has the default member
initialiser `1`. -/
structure RouteOption where
  path : List String
  guaranteed : Bool
  commission : ℚ
  bestSplit : Nat := 1
deriving DecidableEq

/-- The data members of `class TransferProblem` (main.cpp 64-68). -/
structure TransferProblem where
  banks : List (String × Bank)
  borderCommissions : List BorderCommission
  amount : ℚ
  sourceBank : String
  destinationBank : String

/-- Shape of a `std::map<std::string, Bank>` seen as its traversal: keys strictly
ascending (hence distinct). -/
def MapOrdered (banks : List (String × Bank)) : Prop :=
  List.Pairwise (fun x y => x.1 < y.1) banks

/-- The call `banks.at(key)`: the value stored under `key`, or the
`std::out_of_range` exception. -/
def bankAt (banks : List (String × Bank)) (key : String) : Except Fault Bank :=
  match banks with
  | [] => .error .outOfRange
  | (k, b) :: rest => if k = key then .ok b else bankAt rest key

/-- The loop of `TransferProblem::getBorderFee` (main.cpp 70-77) over the remaining
rows. -/
def getBorderFeeLoop (fromCountry toCountry : String) : List BorderCommission → ℚ
  | [] => 0
  | bc :: rest =>
    if bc.fromCountry = fromCountry ∧ bc.toCountry = toCountry then bc.fee
    else getBorderFeeLoop fromCountry toCountry rest

/-- The method `TransferProblem::getBorderFee` (main.cpp 70-77). -/
def TransferProblem.getBorderFee (p : TransferProblem) (fromCountry toCountry : String) :
    ℚ :=
  getBorderFeeLoop fromCountry toCountry p.borderCommissions

/-- A catalog in which every bank is stored under its own name and has at least one tier
in each direction: every leg between catalog banks can then be priced. -/
def WellFormed (p : TransferProblem) : Prop :=
  ∀ kb ∈ p.banks, kb.2.name = kb.1 ∧ kb.2.inputCommission.tiers ≠ [] ∧
    kb.2.outputCommission.tiers ≠ []

/-! ## The solver (main.cpp 173-244) -/

/-- The method `TransferSolver::calculateTotalCommission` (main.cpp 209-222). -/
def calculateTotalCommission (p : TransferProblem) (fromBank toBank : String)
    (amount : ℚ) : Except Fault ℚ := do
  let fromB ← bankAt p.banks fromBank
  let toB ← bankAt p.banks toBank
  let commission : ℚ := 0
  let commission := commission + (← fromB.outputCommission.calculate amount)
  let commission :=
    if fromB.country ≠ toB.country then
      commission + p.getBorderFee fromB.country toB.country
    else commission
  let commission := commission + (← toB.inputCommission.calculate amount)
  return commission

/-- The inner loop of `findMinCostWithSplits` (main.cpp 232-234): `iters` further
additions of the per-part leg cost to `totalCommission`.  The additions are exact
here; `IEEE.partsLoop` rounds each of them as the program does. -/
def partsLoop (p : TransferProblem) (fromBank toBank : String) (partAmount : ℚ) :
    Nat → ℚ → Except Fault ℚ
  | 0, totalCommission => .ok totalCommission
  | iters + 1, totalCommission => do
    let c ← calculateTotalCommission p fromBank toBank partAmount
    partsLoop p fromBank toBank partAmount iters (totalCommission + c)

/-- The outer loop of `findMinCostWithSplits` (main.cpp 228-240): `remaining`
further iterations starting at split count `parts`, carrying
`(bestCost, bestSplit)`.  The quotient `totalAmount / parts` is exact here;
`IEEE.splitLoop` rounds it as the program does. -/
def splitLoop (p : TransferProblem) (fromBank toBank : String) (totalAmount : ℚ) :
    Nat → Nat → ℚ × Nat → Except Fault (ℚ × Nat)
  | 0, _, best => .ok best
  | remaining + 1, parts, (bestCost, bestSplit) => do
    let partAmount := totalAmount / (parts : ℚ)
    let totalCommission ← partsLoop p fromBank toBank partAmount parts 0
    if totalCommission < bestCost then
      splitLoop p fromBank toBank totalAmount remaining (parts + 1) (totalCommission, parts)
    else
      splitLoop p fromBank toBank totalAmount remaining (parts + 1) (bestCost, bestSplit)

/-- The method `TransferSolver::findMinCostWithSplits` (main.cpp 224-243):
`parts` runs from 1 to 10. -/
def findMinCostWithSplits (p : TransferProblem) (fromBank toBank : String)
    (totalAmount : ℚ) : Except Fault (ℚ × Nat) :=
  splitLoop p fromBank toBank totalAmount 10 1 (DBL_MAX, 1)

/-- The direct candidate of `findBestRouteWithSplits` (main.cpp 182-185). -/
def directCandidate (p : TransferProblem) (A B : Bank) : Except Fault (List RouteOption) :=
  if A.hasCommonCorrespondent B then do
    let (minCost, split) ←
      findMinCostWithSplits p p.sourceBank p.destinationBank p.amount
    return [{ path := [p.sourceBank, p.destinationBank], guaranteed := true,
              commission := minCost, bestSplit := split }]
  else return []

/-- The loop over `problem.banks` of `findBestRouteWithSplits` (main.cpp 187-197):
the candidates pushed for the remaining map entries, in order. -/
def hopCandidates (p : TransferProblem) (A B : Bank) :
    List (String × Bank) → Except Fault (List RouteOption)
  | [] => .ok []
  | (name, C) :: rest =>
    if name ≠ A.name ∧ name ≠ B.name then
      if A.hasCommonCorrespondent C && C.hasCommonCorrespondent B then do
        let (costA_C, split1) ← findMinCostWithSplits p A.name C.name p.amount
        let (costC_B, split2) ← findMinCostWithSplits p C.name B.name p.amount
        let totalCost := costA_C + costC_B
        let bestSplit := min split1 split2
        let more ← hopCandidates p A B rest
        return { path := [A.name, C.name, B.name], guaranteed := true,
                 commission := totalCost, bestSplit := bestSplit } :: more
      else hopCandidates p A B rest
    else hopCandidates p A B rest

/-- The vector `candidates` of `findBestRouteWithSplits` as it stands at
main.cpp 198. -/
def candidates (p : TransferProblem) : Except Fault (List RouteOption) := do
  let A ← bankAt p.banks p.sourceBank
  let B ← bankAt p.banks p.destinationBank
  let direct ← directCandidate p A B
  let hops ← hopCandidates p A B p.banks
  return direct ++ hops

/-- The scan of `std::min_element` with the comparator
`a.commission < b.commission`: `best` is replaced only by a strictly cheaper
element. -/
def minElementLoop (best : RouteOption) : List RouteOption → RouteOption
  | [] => best
  | c :: rest =>
    if c.commission < best.commission then minElementLoop c rest
    else minElementLoop best rest

/-- The call `std::min_element(candidates.begin(), candidates.end(), cmp)`;
`none` stands for the iterator `candidates.end()`. -/
def minElement : List RouteOption → Option RouteOption
  | [] => none
  | c :: rest => some (minElementLoop c rest)

/-- The method `TransferSolver::findBestRouteWithSplits` (main.cpp 177-204). -/
def findBestRouteWithSplits (p : TransferProblem) : Except Fault RouteOption := do
  let cands ← candidates p
  match minElement cands with
  | some best => return best
  | none => return { path := [], guaranteed := false, commission := DBL_MAX }

/-! ## The example scenario of the specification -/

/-- Bank `A` of the example: country `X`, correspondent `C`, outbound tier
`{1000, 2, 0.01}`. -/
def exA : Bank :=
  { name := "A", country := "X", inputCommission := ⟨[]⟩,
    outputCommission := ⟨[⟨1000, 2, 1 / 100⟩]⟩, correspondents := ["C"] }

/-- Bank `B` of the example: country `Y`, correspondent `C`, inbound tier
`{1000, 1, 0.02}`. -/
def exB : Bank :=
  { name := "B", country := "Y", inputCommission := ⟨[⟨1000, 1, 2 / 100⟩]⟩,
    outputCommission := ⟨[]⟩, correspondents := ["C"] }

/-- Bank `C` of the example: country `X`, correspondents `A`, `B`, both schedules
`{1000, 0, 0.005}`. -/
def exC : Bank :=
  { name := "C", country := "X", inputCommission := ⟨[⟨1000, 0, 5 / 1000⟩]⟩,
    outputCommission := ⟨[⟨1000, 0, 5 / 1000⟩]⟩, correspondents := ["A", "B"] }

/-- The example request: 1000 from `A` to `B`, border fees `X→Y = 5`, `Y→X = 0`. -/
def exProblem : TransferProblem :=
  { banks := [("A", exA), ("B", exB), ("C", exC)],
    borderCommissions := [⟨"X", "Y", 5⟩, ⟨"Y", "X", 0⟩],
    amount := 1000, sourceBank := "A", destinationBank := "B" }

/-! ## Small concrete inputs -/

/-- A two-tier schedule `[{50, 1, 0.01}, {100, 2, 0.005}]`. -/
def exSchedule : PiecewiseCommission :=
  ⟨[⟨50, 1, 1 / 100⟩, ⟨100, 2, 5 / 1000⟩]⟩

/-- A border table with a reversed row, a duplicate row and a same-country row. -/
def exBorders : TransferProblem :=
  { banks := [], borderCommissions := [⟨"Y", "X", 9⟩, ⟨"X", "Y", 5⟩, ⟨"X", "Y", 7⟩, ⟨"X", "X", 3⟩],
    amount := 0, sourceBank := "", destinationBank := "" }

/-- The example catalog with an explicit same-country row `(X, X, 3)` put in front of the
border table. -/
def exDomestic : TransferProblem :=
  { exProblem with borderCommissions := [⟨"X", "X", 3⟩, ⟨"X", "Y", 5⟩, ⟨"Y", "X", 0⟩] }

/-- A bank `D` in country `Y` whose only correspondent is `E`. -/
def exD : Bank :=
  { name := "D", country := "Y", inputCommission := ⟨[⟨1000, 1, 2 / 100⟩]⟩,
    outputCommission := ⟨[⟨1000, 1, 2 / 100⟩]⟩, correspondents := ["E"] }

/-- A request from `A` to `D` over the catalog `A`, `C`, `D`: `D` shares no correspondent
with `A` or `C`. -/
def exIsolated : TransferProblem :=
  { banks := [("A", exA), ("C", exC), ("D", exD)], borderCommissions := [⟨"X", "Y", 5⟩],
    amount := 1000, sourceBank := "A", destinationBank := "D" }

/-- Banks of a hub catalog: `A` (country `X`), `B` (country `Y`) and `C` (country `Z`)
all list the correspondent `H`; schedules as in the example scenario. -/
def hubA : Bank := { exA with correspondents := ["H"] }

/-- Bank `B` of the hub catalog. -/
def hubB : Bank := { exB with correspondents := ["H"] }

/-- Bank `C` of the hub catalog, in a third country `Z`. -/
def hubC : Bank := { exC with country := "Z", correspondents := ["H"] }

/-- A request of 1000 from `A` to `B` over the hub catalog, with the single border row
`X→Y = 50`: the direct route and the route through `C` are both candidates. -/
def exHub : TransferProblem :=
  { banks := [("A", hubA), ("B", hubB), ("C", hubC)], borderCommissions := [⟨"X", "Y", 50⟩],
    amount := 1000, sourceBank := "A", destinationBank := "B" }

/-- A sender whose single outbound tier has the fixed fee `DBL_MAX`. -/
def maxA : Bank :=
  { name := "A", country := "X", inputCommission := ⟨[]⟩,
    outputCommission := ⟨[⟨1000, DBL_MAX, 0⟩]⟩, correspondents := ["H"] }

/-- A receiver that charges nothing. -/
def maxB : Bank :=
  { name := "B", country := "X", inputCommission := ⟨[⟨1000, 0, 0⟩]⟩,
    outputCommission := ⟨[]⟩, correspondents := ["H"] }

/-- A request of 1000 from `maxA` to `maxB`, which share the correspondent `H`. -/
def exSentinel : TransferProblem :=
  { banks := [("A", maxA), ("B", maxB)], borderCommissions := [],
    amount := 1000, sourceBank := "A", destinationBank := "B" }

/-- The hub catalog with a second intermediary `D`, a copy of `C` under another name. -/
def hubD : Bank := { hubC with name := "D" }

/-- A request of 1000 from `A` to `B` in which the routes through `C` and through `D`
cost the same and the direct route is dearer. -/
def exTie : TransferProblem :=
  { banks := [("A", hubA), ("B", hubB), ("C", hubC), ("D", hubD)],
    borderCommissions := [⟨"X", "Y", 50⟩],
    amount := 1000, sourceBank := "A", destinationBank := "B" }

/-- The hub request with the border fee `X→Y = 10`: the direct route costs as much as the
route through `C`. -/
def exTieDirect : TransferProblem :=
  { exHub with borderCommissions := [⟨"X", "Y", 10⟩] }

/-- The tiers of `exSchedule` in descending order: an unsorted schedule. -/
def exUnsorted : PiecewiseCommission :=
  ⟨[⟨100, 2, 5 / 1000⟩, ⟨50, 1, 1 / 100⟩]⟩

/-! ## The numeric path in binary64 arithmetic

The definitions above compute in exact rationals.  The namespace `IEEE` embeds the numeric
path of the split search once more (`calculate`, `calculateTotalCommission` and
`findMinCostWithSplits`, main.cpp 21-29 and 209-243) with every `double` operation rounded
as IEEE 754 binary64 does: round to nearest, ties to even, gradual underflow, each
operation rounded on its own (no fused multiply-add).  A `double` is the rational it
denotes; the two zeros are not told apart (the program never divides by a computed value),
and a run that would produce an infinity or a NaN ends in `Fault.notFinite`: the model says
nothing about such runs. -/

namespace IEEE

/-- Ways in which a run leaves the part of the behaviour this model describes. -/
inductive Fault where
  /-- The call `std::map::at` on an absent key: throws `std::out_of_range`. -/
  | outOfRange
  /-- The call `std::vector::back` on an empty vector: undefined behaviour. -/
  | undefinedBack
  /-- An operation whose binary64 result is an infinity or a NaN. -/
  | notFinite
deriving DecidableEq

deriving instance DecidableEq for Except

/-- The power `2 ^ e` for an integer exponent. -/
def pow2 (e : Int) : ℚ :=
  if 0 ≤ e then ((2 ^ e.toNat : Nat) : ℚ) else 1 / ((2 ^ (-e).toNat : Nat) : ℚ)

/-- Binary logarithm of a natural number by repeated halving, `fuel` bounding the number of
steps. -/
def log2Loop : Nat → Nat → Nat
  | 0, _ => 0
  | fuel + 1, n => if 2 ≤ n then log2Loop fuel (n / 2) + 1 else 0

/-- The integer `l` with `2 ^ l ≤ n < 2 ^ (l + 1)`, for `n > 0`. -/
def log2 (n : Nat) : Nat := log2Loop n n

/-- The binary exponent of a non-zero rational: the integer `e` with
`2 ^ e ≤ |q| < 2 ^ (e + 1)`. -/
def ilog2 (q : ℚ) : Int :=
  let l : Int := (log2 q.num.natAbs : Int) - (log2 q.den : Int)
  if pow2 l ≤ |q| then l else l - 1

/-- The integer nearest to `m ≥ 0`, a tie going to the even neighbour. -/
def roundHalfEven (m : ℚ) : Int :=
  let f : Int := m.num / (m.den : Int)
  let r : ℚ := m - (f : ℚ)
  if r < 1 / 2 then f
  else if 1 / 2 < r then f + 1
  else if f % 2 = 0 then f else f + 1

/-- Rounding to binary64 with unbounded exponent above: the significand has 53 bits, the
unit in the last place is `2 ^ (e - 52)` and never below `2 ^ (-1074)` (subnormals);
nearest value, ties to even. -/
def roundNearestEven (q : ℚ) : ℚ :=
  if q = 0 then 0
  else
    let u : Int := max (ilog2 q - 52) (-1074)
    let m : Int := roundHalfEven (|q| / pow2 u)
    if 0 < q then (m : ℚ) * pow2 u else -((m : ℚ) * pow2 u)

/-- The binary64 result of an operation whose exact result is `q`: the rounded value, or
`notFinite` when rounding leaves the finite range (overflow to an infinity). -/
def toDouble (q : ℚ) : Except Fault ℚ :=
  if |roundNearestEven q| ≤ DBL_MAX then .ok (roundNearestEven q) else .error .notFinite

/-- The `double` sum `x + y`. -/
def fadd (x y : ℚ) : Except Fault ℚ := toDouble (x + y)

/-- The `double` product `x * y`. -/
def fmul (x y : ℚ) : Except Fault ℚ := toDouble (x * y)

/-- The `double` quotient `x / y`; a zero divisor gives an infinity or a NaN. -/
def fdiv (x y : ℚ) : Except Fault ℚ :=
  if y = 0 then .error .notFinite else toDouble (x / y)

/-- The expression `tier.fixedFee + amount * tier.percent` (main.cpp 24 and 28). -/
def fee (tier : Tier) (amount : ℚ) : Except Fault ℚ := do
  let product ← fmul amount tier.percent
  fadd tier.fixedFee product

/-- The range-for loop of `PiecewiseCommission::calculate` (main.cpp 22-26); `none` when
the loop runs to its end. -/
def calculateLoop (amount : ℚ) : List Tier → Option (Except Fault ℚ)
  | [] => none
  | tier :: rest =>
    if amount ≤ tier.threshold then some (fee tier amount)
    else calculateLoop amount rest

/-- The method `PiecewiseCommission::calculate` (main.cpp 21-29). -/
def calculate (self : PiecewiseCommission) (amount : ℚ) : Except Fault ℚ :=
  match calculateLoop amount self.tiers with
  | some r => r
  | none =>
    match self.tiers.getLast? with
    | some lastTier => fee lastTier amount
    | none => .error .undefinedBack

/-- The call `banks.at(key)`. -/
def bankAt (banks : List (String × Bank)) (key : String) : Except Fault Bank :=
  match banks with
  | [] => .error .outOfRange
  | (k, b) :: rest => if k = key then .ok b else bankAt rest key

/-- The method `TransferSolver::calculateTotalCommission` (main.cpp 209-222): three
`+=` on `commission`, each a rounded addition. -/
def calculateTotalCommission (p : TransferProblem) (fromBank toBank : String)
    (amount : ℚ) : Except Fault ℚ := do
  let fromB ← bankAt p.banks fromBank
  let toB ← bankAt p.banks toBank
  let commission : ℚ := 0
  let commission ← fadd commission (← calculate fromB.outputCommission amount)
  let commission ←
    if fromB.country ≠ toB.country then
      fadd commission (p.getBorderFee fromB.country toB.country)
    else pure commission
  let commission ← fadd commission (← calculate toB.inputCommission amount)
  return commission

/-- The inner loop of `findMinCostWithSplits` (main.cpp 232-234): `iters` further rounded
additions of the per-part leg cost to `totalCommission`. -/
def partsLoop (p : TransferProblem) (fromBank toBank : String) (partAmount : ℚ) :
    Nat → ℚ → Except Fault ℚ
  | 0, totalCommission => .ok totalCommission
  | iters + 1, totalCommission => do
    let c ← calculateTotalCommission p fromBank toBank partAmount
    let totalCommission ← fadd totalCommission c
    partsLoop p fromBank toBank partAmount iters totalCommission

/-- The value of `totalCommission` at main.cpp 236 for a given `parts` (main.cpp
229-234): the rounded quotient `totalAmount / parts`, then the inner loop from `0.0`. -/
def candidateTotal (p : TransferProblem) (fromBank toBank : String) (totalAmount : ℚ)
    (parts : Nat) : Except Fault ℚ := do
  let partAmount ← fdiv totalAmount (parts : ℚ)
  partsLoop p fromBank toBank partAmount parts 0

/-- The outer loop of `findMinCostWithSplits` (main.cpp 228-240). -/
def splitLoop (p : TransferProblem) (fromBank toBank : String) (totalAmount : ℚ) :
    Nat → Nat → ℚ × Nat → Except Fault (ℚ × Nat)
  | 0, _, best => .ok best
  | remaining + 1, parts, (bestCost, bestSplit) => do
    let totalCommission ← candidateTotal p fromBank toBank totalAmount parts
    if totalCommission < bestCost then
      splitLoop p fromBank toBank totalAmount remaining (parts + 1) (totalCommission, parts)
    else
      splitLoop p fromBank toBank totalAmount remaining (parts + 1) (bestCost, bestSplit)

/-- The method `TransferSolver::findMinCostWithSplits` (main.cpp 224-243). -/
def findMinCostWithSplits (p : TransferProblem) (fromBank toBank : String)
    (totalAmount : ℚ) : Except Fault (ℚ × Nat) :=
  splitLoop p fromBank toBank totalAmount 10 1 (DBL_MAX, 1)

/-- A sender charging 100 percent and nothing fixed. -/
def unitS : Bank :=
  { name := "S", country := "X", inputCommission := ⟨[]⟩,
    outputCommission := ⟨[⟨1000, 0, 1⟩]⟩, correspondents := ["H"] }

/-- A receiver charging nothing. -/
def unitR : Bank :=
  { name := "R", country := "X", inputCommission := ⟨[⟨1000, 0, 0⟩]⟩,
    outputCommission := ⟨[]⟩, correspondents := ["H"] }

/-- A catalog in which the leg `S → R` costs exactly the amount moved. -/
def unitProblem : TransferProblem :=
  { banks := [("R", unitR), ("S", unitS)], borderCommissions := [], amount := 1,
    sourceBank := "S", destinationBank := "R" }

/-- The sum accumulated by `n` successive rounded additions of `c`, starting from `acc`. -/
def repeatedSum (c : ℚ) : Nat → ℚ → Except Fault ℚ
  | 0, acc => .ok acc
  | n + 1, acc => do
    let acc ← fadd acc c
    repeatedSum c n acc

/-- The ten candidate totals of the leg `S → R` of `unitProblem` for the amount 1. -/
def unitCand (k : Nat) : ℚ :=
  match k with
  | 6 => 1 - 1 / 2 ^ 53
  | 7 => 1 - 1 / 2 ^ 52
  | 9 => 1 + 1 / 2 ^ 52
  | 10 => 1 - 1 / 2 ^ 53
  | _ => 1

end IEEE

/-! ## Commission schedules -/

theorem calculateLoop_none_iff (amount : ℚ) (tiers : List Tier) :
    PiecewiseCommission.calculateLoop amount tiers = none ↔
      ∀ u ∈ tiers, ¬ amount ≤ u.threshold := by
  induction tiers with
  | nil => simp [PiecewiseCommission.calculateLoop]
  | cons t rest ih =>
    by_cases h : amount ≤ t.threshold
    · simp [PiecewiseCommission.calculateLoop, h]
    · simp only [PiecewiseCommission.calculateLoop, h, if_false, ih, List.mem_cons]
      constructor
      · intro hr u hu
        rcases hu with rfl | hu
        · exact h
        · exact hr u hu
      · intro hr u hu
        exact hr u (Or.inr hu)

theorem calculateLoop_first (amount : ℚ) (pre : List Tier) (t : Tier) (post : List Tier)
    (hpre : ∀ u ∈ pre, ¬ amount ≤ u.threshold) (ht : amount ≤ t.threshold) :
    PiecewiseCommission.calculateLoop amount (pre ++ t :: post) =
      some (t.fixedFee + amount * t.percent) := by
  induction pre with
  | nil => simp [PiecewiseCommission.calculateLoop, ht]
  | cons u pre ih =>
    have hu : ¬ amount ≤ u.threshold := hpre u (by simp)
    have hrest := ih (fun v hv => hpre v (by simp [hv]))
    simpa [PiecewiseCommission.calculateLoop, hu] using hrest

theorem back_eq_getLast (tiers : List Tier) (h : tiers ≠ []) :
    back tiers = .ok (tiers.getLast h) := by
  simp [back, List.getLast?_eq_getLast _ h]

/-- A non-empty schedule always yields a fee. -/
theorem calculate_ok_of_ne_nil (pc : PiecewiseCommission) (amount : ℚ)
    (h : pc.tiers ≠ []) : ∃ fee, pc.calculate amount = .ok fee := by
  unfold PiecewiseCommission.calculate
  cases hl : PiecewiseCommission.calculateLoop amount pc.tiers with
  | some fee => exact ⟨fee, rfl⟩
  | none => simp [back_eq_getLast _ h]

theorem calculateLoop_skip (amount : ℚ) (pre : List Tier) (t : Tier) (post : List Tier)
    (ht : ¬ amount ≤ t.threshold) :
    PiecewiseCommission.calculateLoop amount (pre ++ t :: post) =
      PiecewiseCommission.calculateLoop amount (pre ++ post) := by
  induction pre with
  | nil => simp [PiecewiseCommission.calculateLoop, ht]
  | cons u pre ih =>
    by_cases hu : amount ≤ u.threshold
    · simp [PiecewiseCommission.calculateLoop, hu]
    · simpa [PiecewiseCommission.calculateLoop, hu] using ih

theorem back_skip (pre : List Tier) (t : Tier) (post : List Tier) (hpost : post ≠ []) :
    back (pre ++ t :: post) = back (pre ++ post) := by
  have h0 : post.getLast? = some (post.getLast hpost) := List.getLast?_eq_getLast _ hpost
  have h1 : (t :: post).getLast? = some (post.getLast hpost) := by
    rw [List.getLast?_eq_getLast _ (List.cons_ne_nil t post), List.getLast_cons hpost]
  simp [back, List.getLast?_append, h0, h1]

/-- C1: on a non-empty schedule `calculate` returns `fixedFee + amount * percent` of
the first tier in stored order with `amount <= threshold` (so the boundary
`amount = threshold` selects the tier); a tier whose threshold is below the amount
is passed over (the result is that of the schedule without it, when a later tier
exists); and when no tier satisfies the test the last tier is used. -/
theorem calculate_first_tier_or_last (pc : PiecewiseCommission) (amount : ℚ)
    (hne : pc.tiers ≠ []) :
    (∀ pre t post, pc.tiers = pre ++ t :: post →
        (∀ u ∈ pre, ¬ amount ≤ u.threshold) → amount ≤ t.threshold →
        pc.calculate amount = .ok (t.fixedFee + amount * t.percent)) ∧
    (∀ pre t post, pc.tiers = pre ++ t :: post → post ≠ [] → t.threshold < amount →
        pc.calculate amount = PiecewiseCommission.calculate ⟨pre ++ post⟩ amount) ∧
    ((∀ u ∈ pc.tiers, ¬ amount ≤ u.threshold) →
        pc.calculate amount =
          .ok ((pc.tiers.getLast hne).fixedFee + amount * (pc.tiers.getLast hne).percent)) := by
  refine ⟨?_, ?_, ?_⟩
  · intro pre t post hsplit hpre ht
    simp [PiecewiseCommission.calculate, hsplit, calculateLoop_first amount pre t post hpre ht]
  · intro pre t post hsplit hpost ht
    simp only [PiecewiseCommission.calculate, hsplit,
      calculateLoop_skip amount pre t post (not_le.mpr ht), back_skip pre t post hpost]
  · intro hall
    simp [PiecewiseCommission.calculate, (calculateLoop_none_iff amount pc.tiers).mpr hall,
      back_eq_getLast _ hne]

/-- C1 at `exSchedule`: 50 is priced by the first tier (boundary inclusive), 50.01 by
the schedule without that tier, 150 by the last tier. -/
theorem calculate_first_tier_or_last_witness :
    exSchedule.calculate 50 = .ok (1 + 50 * (1 / 100)) ∧
    exSchedule.calculate (5001 / 100) =
      PiecewiseCommission.calculate ⟨[⟨100, 2, 5 / 1000⟩]⟩ (5001 / 100) ∧
    exSchedule.calculate 150 = .ok (2 + 150 * (5 / 1000)) :=
  ⟨(calculate_first_tier_or_last exSchedule 50 (by simp [exSchedule])).1
      [] ⟨50, 1, 1 / 100⟩ [⟨100, 2, 5 / 1000⟩] rfl (by simp) (by norm_num),
   (calculate_first_tier_or_last exSchedule (5001 / 100) (by simp [exSchedule])).2.1
      [] ⟨50, 1, 1 / 100⟩ [⟨100, 2, 5 / 1000⟩] rfl (by simp) (by norm_num),
   (calculate_first_tier_or_last exSchedule 150 (by simp [exSchedule])).2.2
      (by simp [exSchedule]; norm_num)⟩

/-! ## Border fees -/

theorem getBorderFeeLoop_first (fromCountry toCountry : String)
    (pre : List BorderCommission) (bc : BorderCommission) (post : List BorderCommission)
    (hpre : ∀ e ∈ pre, ¬ (e.fromCountry = fromCountry ∧ e.toCountry = toCountry))
    (hf : bc.fromCountry = fromCountry) (ht : bc.toCountry = toCountry) :
    getBorderFeeLoop fromCountry toCountry (pre ++ bc :: post) = bc.fee := by
  induction pre with
  | nil => simp [getBorderFeeLoop, hf, ht]
  | cons e pre ih =>
    have he : ¬ (e.fromCountry = fromCountry ∧ e.toCountry = toCountry) := hpre e (by simp)
    have hrest := ih (fun v hv => hpre v (by simp [hv]))
    simpa [getBorderFeeLoop, he] using hrest

theorem getBorderFeeLoop_none (fromCountry toCountry : String)
    (rows : List BorderCommission)
    (hall : ∀ e ∈ rows, ¬ (e.fromCountry = fromCountry ∧ e.toCountry = toCountry)) :
    getBorderFeeLoop fromCountry toCountry rows = 0 := by
  induction rows with
  | nil => simp [getBorderFeeLoop]
  | cons e rows ih =>
    have he : ¬ (e.fromCountry = fromCountry ∧ e.toCountry = toCountry) := hall e (by simp)
    have hrest := ih (fun v hv => hall v (by simp [hv]))
    simpa [getBorderFeeLoop, he] using hrest

/-- C9: `getBorderFee` returns the fee of the first row, in list order, whose
`fromCountry` and `toCountry` both equal the arguments, and 0 when no row matches. -/
theorem getBorderFee_first_match (p : TransferProblem) (fromCountry toCountry : String) :
    (∀ pre bc post, p.borderCommissions = pre ++ bc :: post →
        (∀ e ∈ pre, ¬ (e.fromCountry = fromCountry ∧ e.toCountry = toCountry)) →
        bc.fromCountry = fromCountry → bc.toCountry = toCountry →
        p.getBorderFee fromCountry toCountry = bc.fee) ∧
    ((∀ e ∈ p.borderCommissions, ¬ (e.fromCountry = fromCountry ∧ e.toCountry = toCountry)) →
        p.getBorderFee fromCountry toCountry = 0) := by
  constructor
  · intro pre bc post hsplit hpre hf ht
    rw [TransferProblem.getBorderFee, hsplit]
    exact getBorderFeeLoop_first fromCountry toCountry pre bc post hpre hf ht
  · intro hall
    exact getBorderFeeLoop_none fromCountry toCountry _ hall

/-- C9 at `exBorders`: the reversed row `(Y, X)` is passed over, the earlier of the two
`(X, Y)` rows wins, and an absent pair costs 0. -/
theorem getBorderFee_first_match_witness :
    exBorders.getBorderFee "X" "Y" = 5 ∧ exBorders.getBorderFee "Y" "Z" = 0 :=
  ⟨(getBorderFee_first_match exBorders "X" "Y").1
      [⟨"Y", "X", 9⟩] ⟨"X", "Y", 5⟩ [⟨"X", "Y", 7⟩, ⟨"X", "X", 3⟩] rfl (by simp) rfl rfl,
   (getBorderFee_first_match exBorders "Y" "Z").2 (by simp [exBorders])⟩

/-! ## Leg cost -/

/-- The leg cost once both banks are resolved and both schedules yield a fee. -/
theorem calculateTotalCommission_ok (p : TransferProblem) (fromBank toBank : String)
    (amount : ℚ) (fromB toB : Bank) (out inn : ℚ)
    (hf : bankAt p.banks fromBank = .ok fromB) (ht : bankAt p.banks toBank = .ok toB)
    (hout : fromB.outputCommission.calculate amount = .ok out)
    (hin : toB.inputCommission.calculate amount = .ok inn) :
    calculateTotalCommission p fromBank toBank amount =
      .ok (out + (if fromB.country ≠ toB.country then
                    p.getBorderFee fromB.country toB.country else 0) + inn) := by
  by_cases hc : fromB.country = toB.country
  · simp [calculateTotalCommission, hf, ht, hout, hin, hc, bind, Except.bind, pure,
      Except.pure]
  · simp [calculateTotalCommission, hf, ht, hout, hin, hc, bind, Except.bind, pure,
      Except.pure]

/-- With both banks resolved and the needed schedules non-empty, the leg cost is a
total function of the amount. -/
theorem calculateTotalCommission_total (p : TransferProblem) (fromBank toBank : String)
    (fromB toB : Bank)
    (hf : bankAt p.banks fromBank = .ok fromB) (ht : bankAt p.banks toBank = .ok toB)
    (ho : fromB.outputCommission.tiers ≠ []) (hi : toB.inputCommission.tiers ≠ []) :
    ∃ L : ℚ → ℚ, ∀ x, calculateTotalCommission p fromBank toBank x = .ok (L x) := by
  choose fo hfo using fun x => calculate_ok_of_ne_nil fromB.outputCommission x ho
  choose fi hfi using fun x => calculate_ok_of_ne_nil toB.inputCommission x hi
  exact ⟨_, fun x =>
    calculateTotalCommission_ok p fromBank toBank x fromB toB (fo x) (fi x) hf ht (hfo x) (hfi x)⟩

/-- C2: with sender and receiver resolved and the sender's outbound and the receiver's
inbound schedule non-empty, the leg cost is the sender's outbound fee, plus the border
fee looked up for the two countries when they differ (0 otherwise), plus the
receiver's inbound fee; on a same-country leg no table row is added. -/
theorem calculateTotalCommission_contract (p : TransferProblem) (fromBank toBank : String)
    (amount : ℚ) (fromB toB : Bank)
    (hf : bankAt p.banks fromBank = .ok fromB) (ht : bankAt p.banks toBank = .ok toB)
    (ho : fromB.outputCommission.tiers ≠ []) (hi : toB.inputCommission.tiers ≠ []) :
    ∃ out inn, fromB.outputCommission.calculate amount = .ok out ∧
      toB.inputCommission.calculate amount = .ok inn ∧
      calculateTotalCommission p fromBank toBank amount =
        .ok (out + (if fromB.country ≠ toB.country then
                      p.getBorderFee fromB.country toB.country else 0) + inn) ∧
      (fromB.country = toB.country →
        calculateTotalCommission p fromBank toBank amount = .ok (out + inn)) := by
  obtain ⟨out, hout⟩ := calculate_ok_of_ne_nil fromB.outputCommission amount ho
  obtain ⟨inn, hin⟩ := calculate_ok_of_ne_nil toB.inputCommission amount hi
  have h := calculateTotalCommission_ok p fromBank toBank amount fromB toB out inn hf ht hout hin
  refine ⟨out, inn, hout, hin, h, ?_⟩
  intro hc
  rw [h]
  simp [hc]

/-- C2 at the same-country leg `A → C` of `exDomestic`, whose table has a row
`(X, X, 3)`. -/
theorem calculateTotalCommission_contract_witness :
    ∃ out inn, exA.outputCommission.calculate 1000 = .ok out ∧
      exC.inputCommission.calculate 1000 = .ok inn ∧
      calculateTotalCommission exDomestic "A" "C" 1000 =
        .ok (out + (if exA.country ≠ exC.country then
                      exDomestic.getBorderFee exA.country exC.country else 0) + inn) ∧
      (exA.country = exC.country →
        calculateTotalCommission exDomestic "A" "C" 1000 = .ok (out + inn)) :=
  calculateTotalCommission_contract exDomestic "A" "C" 1000 exA exC
    (by simp [bankAt, exDomestic, exProblem]) (by simp [bankAt, exDomestic, exProblem])
    (by simp [exA]) (by simp [exC])

/-- C7: on an empty schedule `calculate` reaches `tiers.back()` of an empty vector for
every amount: the outcome is undefined behaviour, not a typed error, and a leg
that needs the schedule (here `B → A` of the example, `B` having no outbound tier)
inherits it. -/
theorem calculate_empty_schedule_undefined (amount : ℚ) :
    PiecewiseCommission.calculate ⟨[]⟩ amount = .error Fault.undefinedBack ∧
    calculateTotalCommission exProblem "B" "A" amount = .error Fault.undefinedBack := by
  constructor
  · simp [PiecewiseCommission.calculate, PiecewiseCommission.calculateLoop, back]
  · simp [calculateTotalCommission, bankAt, exProblem, exA, exB,
      PiecewiseCommission.calculate, PiecewiseCommission.calculateLoop, back, bind,
      Except.bind]

/-- C10, as stated, fails: on the table of `exBorders`, which holds the row
`(X, X, 3)`, the lookup with both countries `X` returns 3, not 0. -/
theorem same_country_lookup_counterexample :
    exBorders.getBorderFee "X" "X" = 3 ∧ exBorders.getBorderFee "X" "X" ≠ 0 := by
  have h : exBorders.getBorderFee "X" "X" = 3 := by
    simp [TransferProblem.getBorderFee, getBorderFeeLoop, exBorders]
  exact ⟨h, by rw [h]; norm_num⟩

/-- C10, amended: called with both countries equal to `c`, `getBorderFee` returns 0
when the table has no `(c, c)` row and otherwise the fee of the first such row; the
zero border fee of a domestic transfer is enforced by `calculateTotalCommission`,
which adds nothing from the table to a leg whose two countries are both `c`. -/
theorem getBorderFee_same_country (p : TransferProblem) (c : String) :
    ((∀ e ∈ p.borderCommissions, ¬ (e.fromCountry = c ∧ e.toCountry = c)) →
        p.getBorderFee c c = 0) ∧
    (∀ pre bc post, p.borderCommissions = pre ++ bc :: post →
        (∀ e ∈ pre, ¬ (e.fromCountry = c ∧ e.toCountry = c)) →
        bc.fromCountry = c → bc.toCountry = c → p.getBorderFee c c = bc.fee) ∧
    (∀ fromBank toBank amount fromB toB out inn,
        bankAt p.banks fromBank = .ok fromB → bankAt p.banks toBank = .ok toB →
        fromB.country = c → toB.country = c →
        fromB.outputCommission.calculate amount = .ok out →
        toB.inputCommission.calculate amount = .ok inn →
        calculateTotalCommission p fromBank toBank amount = .ok (out + 0 + inn)) := by
  refine ⟨getBorderFeeLoop_none c c _, ?_, ?_⟩
  · intro pre bc post hsplit hpre hf ht
    rw [TransferProblem.getBorderFee, hsplit]
    exact getBorderFeeLoop_first c c pre bc post hpre hf ht
  · intro fromBank toBank amount fromB toB out inn hf ht hcf hct hout hin
    rw [calculateTotalCommission_ok p fromBank toBank amount fromB toB out inn hf ht hout hin]
    simp [hcf, hct]

/-- C10 amended, at `exDomestic` and country `X`: the lookup returns the row's fee 3,
while the leg `A → C` (both in `X`) costs `12 + 0 + 5`. -/
theorem getBorderFee_same_country_witness :
    exProblem.getBorderFee "X" "X" = 0 ∧
    exDomestic.getBorderFee "X" "X" = 3 ∧
    calculateTotalCommission exDomestic "A" "C" 1000 = .ok (12 + 0 + 5) :=
  ⟨(getBorderFee_same_country exProblem "X").1 (by simp [exProblem]),
   (getBorderFee_same_country exDomestic "X").2.1 [] ⟨"X", "X", 3⟩
      [⟨"X", "Y", 5⟩, ⟨"Y", "X", 0⟩] rfl (by simp) rfl rfl,
   (getBorderFee_same_country exDomestic "X").2.2 "A" "C" 1000 exA exC 12 5
      (by simp [bankAt, exDomestic, exProblem]) (by simp [bankAt, exDomestic, exProblem])
      rfl rfl
      (by simp [exA, PiecewiseCommission.calculate, PiecewiseCommission.calculateLoop]
          norm_num)
      (by simp [exC, PiecewiseCommission.calculate, PiecewiseCommission.calculateLoop]
          norm_num)⟩

/-! ## Equal-share splits -/

/-- The inner loop adds the per-part leg cost `iters` times: repeated addition is the
product. -/
theorem partsLoop_ok (p : TransferProblem) (fromBank toBank : String) (partAmount c : ℚ)
    (hc : calculateTotalCommission p fromBank toBank partAmount = .ok c) (iters : Nat) :
    ∀ acc : ℚ, partsLoop p fromBank toBank partAmount iters acc =
      .ok (acc + (iters : ℚ) * c) := by
  induction iters with
  | zero => intro acc; simp [partsLoop]
  | succ n ih =>
    intro acc
    simp only [partsLoop, hc, bind, Except.bind, ih]
    congr 1
    push_cast
    ring

/-- Invariant of the outer loop, for any per-split cost function `cost` computed by the
inner loop: the loop returns the minimum of the incoming `bestCost` and the costs of
the split counts it scans, with the first split count attaining a strict improvement. -/
theorem splitLoop_spec (p : TransferProblem) (fromBank toBank : String) (totalAmount : ℚ)
    (cost : Nat → ℚ)
    (hcost : ∀ k : Nat,
      partsLoop p fromBank toBank (totalAmount / (k : ℚ)) k 0 = .ok (cost k)) :
    ∀ (remaining parts : Nat) (bestCost : ℚ) (bestSplit : Nat),
      ∃ c s, splitLoop p fromBank toBank totalAmount remaining parts (bestCost, bestSplit) =
          .ok (c, s) ∧
        c ≤ bestCost ∧
        (∀ k, parts ≤ k → k < parts + remaining → c ≤ cost k) ∧
        ((c = bestCost ∧ s = bestSplit ∧
            ∀ k, parts ≤ k → k < parts + remaining → bestCost ≤ cost k) ∨
         (parts ≤ s ∧ s < parts + remaining ∧ c = cost s ∧ c < bestCost ∧
            ∀ k, parts ≤ k → k < s → c < cost k)) := by
  intro remaining
  induction remaining with
  | zero =>
    intro parts bestCost bestSplit
    refine ⟨bestCost, bestSplit, by simp [splitLoop], le_refl _, ?_, Or.inl ⟨rfl, rfl, ?_⟩⟩
    · intro k h1 h2; omega
    · intro k h1 h2; omega
  | succ n ih =>
    intro parts bestCost bestSplit
    by_cases hlt : cost parts < bestCost
    · obtain ⟨c, s, hrun, hle, hmin, hcase⟩ := ih (parts + 1) (cost parts) parts
      refine ⟨c, s, ?_, le_of_lt (lt_of_le_of_lt hle hlt), ?_, Or.inr ?_⟩
      · simp only [splitLoop, hcost parts, bind, Except.bind, hlt, if_true, hrun]
      · intro k h1 h2
        rcases Nat.eq_or_lt_of_le h1 with rfl | h3
        · exact hle
        · exact hmin k h3 (by omega)
      · rcases hcase with ⟨hc, hs, _⟩ | ⟨h1, h2, hc, hlt2, hfirst⟩
        · refine ⟨by omega, by omega, by rw [hc, hs], by rw [hc]; exact hlt, ?_⟩
          intro k h1 h2; omega
        · refine ⟨by omega, by omega, hc, lt_trans hlt2 hlt, ?_⟩
          intro k h3 h4
          rcases Nat.eq_or_lt_of_le h3 with rfl | h5
          · exact hlt2
          · exact hfirst k h5 h4
    · obtain ⟨c, s, hrun, hle, hmin, hcase⟩ := ih (parts + 1) bestCost bestSplit
      have hge : bestCost ≤ cost parts := not_lt.mp hlt
      refine ⟨c, s, ?_, hle, ?_, ?_⟩
      · simp only [splitLoop, hcost parts, bind, Except.bind, hlt, if_false, hrun]
      · intro k h1 h2
        rcases Nat.eq_or_lt_of_le h1 with rfl | h3
        · exact le_trans hle hge
        · exact hmin k h3 (by omega)
      · rcases hcase with ⟨hc, hs, hall⟩ | ⟨h1, h2, hc, hlt2, hfirst⟩
        · refine Or.inl ⟨hc, hs, ?_⟩
          intro k h1 h2
          rcases Nat.eq_or_lt_of_le h1 with rfl | h3
          · exact hge
          · exact hall k h3 (by omega)
        · refine Or.inr ⟨by omega, by omega, hc, hlt2, ?_⟩
          intro k h3 h4
          rcases Nat.eq_or_lt_of_le h3 with rfl | h5
          · exact lt_of_lt_of_le hlt2 hge
          · exact hfirst k h5 h4

/-- From the outer-loop invariant: the result of `findMinCostWithSplits` in terms of a
per-split cost function computed by the inner loop. -/
theorem findMinCostWithSplits_spec (p : TransferProblem) (fromBank toBank : String)
    (totalAmount : ℚ) (cost : Nat → ℚ)
    (hcost : ∀ k : Nat,
      partsLoop p fromBank toBank (totalAmount / (k : ℚ)) k 0 = .ok (cost k)) :
    ∃ c s, findMinCostWithSplits p fromBank toBank totalAmount = .ok (c, s) ∧
      c ≤ DBL_MAX ∧ (∀ k, 1 ≤ k → k ≤ 10 → c ≤ cost k) ∧
      ((c = DBL_MAX ∧ s = 1 ∧ ∀ k, 1 ≤ k → k ≤ 10 → DBL_MAX ≤ cost k) ∨
       (1 ≤ s ∧ s ≤ 10 ∧ c = cost s ∧ c < DBL_MAX ∧ ∀ k, 1 ≤ k → k < s → c < cost k)) := by
  obtain ⟨c, s, hrun, hle, hmin, hcase⟩ :=
    splitLoop_spec p fromBank toBank totalAmount cost hcost 10 1 DBL_MAX 1
  refine ⟨c, s, hrun, hle, fun k h1 h2 => hmin k h1 (by omega), ?_⟩
  rcases hcase with ⟨hc, hs, hall⟩ | ⟨h1, h2, hc, hlt, hfirst⟩
  · exact Or.inl ⟨hc, hs, fun k h1 h2 => hall k h1 (by omega)⟩
  · exact Or.inr ⟨h1, by omega, hc, hlt, hfirst⟩

/-- The inner loop started at 0 computes `parts * legCost partAmount`. -/
theorem partsLoop_product (p : TransferProblem) (fromBank toBank : String)
    (legCost : ℚ → ℚ)
    (hleg : ∀ x, calculateTotalCommission p fromBank toBank x = .ok (legCost x))
    (partAmount : ℚ) (parts : Nat) :
    partsLoop p fromBank toBank partAmount parts 0 = .ok ((parts : ℚ) * legCost partAmount) := by
  rw [partsLoop_ok p fromBank toBank partAmount (legCost partAmount) (hleg partAmount) parts 0]
  simp

/-- The leg `A → C` of the example costs `2 + 0.01 x` outbound plus `0.005 x` inbound for
every amount `x` (single-tier schedules, same country). -/
theorem exProblem_leg_A_C (x : ℚ) :
    calculateTotalCommission exProblem "A" "C" x =
      .ok (2 + x * (1 / 100) + (0 + x * (5 / 1000))) := by
  have h := calculateTotalCommission_ok exProblem "A" "C" x exA exC
    (2 + x * (1 / 100)) (0 + x * (5 / 1000))
    (by simp [bankAt, exProblem]) (by simp [bankAt, exProblem])
    (by by_cases hx : x ≤ 1000 <;>
          simp [exA, PiecewiseCommission.calculate, PiecewiseCommission.calculateLoop, back, hx])
    (by by_cases hx : x ≤ 1000 <;>
          simp [exC, PiecewiseCommission.calculate, PiecewiseCommission.calculateLoop, back, hx])
  rw [h]
  simp [exA, exC]

/-- In the exact-arithmetic embedding: for a leg with both banks resolved and the needed
schedules non-empty, the leg cost is a function `legCost` of the amount and the inner
loop's repeated addition equals `parts * legCost partAmount`; when each of the ten
candidate costs is below the sentinel, the split search returns the minimum over
`parts = 1..10` of `parts * legCost (totalAmount / parts)` and the smallest split count
attaining it.  The program's rounded arithmetic is treated in the namespace `IEEE`. -/
theorem findMinCostWithSplits_exact_contract (p : TransferProblem) (fromBank toBank : String)
    (totalAmount : ℚ) (fromB toB : Bank)
    (hf : bankAt p.banks fromBank = .ok fromB) (ht : bankAt p.banks toBank = .ok toB)
    (ho : fromB.outputCommission.tiers ≠ []) (hi : toB.inputCommission.tiers ≠ [])
    (hbound : ∀ k : Nat, 1 ≤ k → k ≤ 10 → ∀ c,
      calculateTotalCommission p fromBank toBank (totalAmount / (k : ℚ)) = .ok c →
      (k : ℚ) * c < DBL_MAX) :
    ∃ legCost : ℚ → ℚ,
      (∀ x, calculateTotalCommission p fromBank toBank x = .ok (legCost x)) ∧
      (∀ (k : Nat) (x : ℚ),
        partsLoop p fromBank toBank x k 0 = .ok ((k : ℚ) * legCost x)) ∧
      ∃ cost parts,
        findMinCostWithSplits p fromBank toBank totalAmount = .ok (cost, parts) ∧
        1 ≤ parts ∧ parts ≤ 10 ∧
        cost = (parts : ℚ) * legCost (totalAmount / (parts : ℚ)) ∧
        (∀ k : Nat, 1 ≤ k → k ≤ 10 →
          cost ≤ (k : ℚ) * legCost (totalAmount / (k : ℚ))) ∧
        (∀ k : Nat, 1 ≤ k → k < parts →
          cost < (k : ℚ) * legCost (totalAmount / (k : ℚ))) := by
  obtain ⟨legCost, hleg⟩ := calculateTotalCommission_total p fromBank toBank fromB toB hf ht ho hi
  have hprod := fun (k : Nat) (x : ℚ) => partsLoop_product p fromBank toBank legCost hleg x k
  refine ⟨legCost, hleg, hprod, ?_⟩
  obtain ⟨c, s, hrun, _, hmin, hcase⟩ :=
    findMinCostWithSplits_spec p fromBank toBank totalAmount
      (fun k => (k : ℚ) * legCost (totalAmount / (k : ℚ))) (fun k => hprod k _)
  rcases hcase with ⟨_, _, hall⟩ | ⟨h1, h2, hc, _, hfirst⟩
  · exact absurd (hbound 1 (le_refl 1) (by norm_num) _ (hleg _))
      (not_lt.mpr (hall 1 (le_refl 1) (by norm_num)))
  · exact ⟨c, s, hrun, h1, h2, hc, hmin, hfirst⟩

/-- The candidate pushed for an intermediary `C` from the two leg results. -/
theorem hopCandidates_cons_inv (p : TransferProblem) (A B : Bank) (name : String) (C : Bank)
    (rest : List (String × Bank)) (hs : List RouteOption)
    (h : hopCandidates p A B ((name, C) :: rest) = .ok hs) :
    (name ≠ A.name ∧ name ≠ B.name ∧ A.hasCommonCorrespondent C = true ∧
        C.hasCommonCorrespondent B = true ∧
        ∃ c1 s1 c2 s2 more,
          findMinCostWithSplits p A.name C.name p.amount = .ok (c1, s1) ∧
          findMinCostWithSplits p C.name B.name p.amount = .ok (c2, s2) ∧
          hopCandidates p A B rest = .ok more ∧
          hs = { path := [A.name, C.name, B.name], guaranteed := true,
                 commission := c1 + c2, bestSplit := min s1 s2 } :: more) ∨
    (¬ (name ≠ A.name ∧ name ≠ B.name ∧ A.hasCommonCorrespondent C = true ∧
        C.hasCommonCorrespondent B = true) ∧ hopCandidates p A B rest = .ok hs) := by
  by_cases hn : name ≠ A.name ∧ name ≠ B.name
  · by_cases hadj : A.hasCommonCorrespondent C = true ∧ C.hasCommonCorrespondent B = true
    · left
      refine ⟨hn.1, hn.2, hadj.1, hadj.2, ?_⟩
      rw [hopCandidates, if_pos hn] at h
      simp only [hadj.1, hadj.2, Bool.and_self, if_true] at h
      cases h1 : findMinCostWithSplits p A.name C.name p.amount with
      | error e => simp [h1, bind, Except.bind] at h
      | ok v1 =>
        cases h2 : findMinCostWithSplits p C.name B.name p.amount with
        | error e => simp [h1, h2, bind, Except.bind] at h
        | ok v2 =>
          cases h3 : hopCandidates p A B rest with
          | error e => simp [h1, h2, h3, bind, Except.bind] at h
          | ok more =>
            obtain ⟨c1, s1⟩ := v1
            obtain ⟨c2, s2⟩ := v2
            simp only [h1, h2, h3, bind, Except.bind, pure, Except.pure, Except.ok.injEq] at h
            exact ⟨c1, s1, c2, s2, more, rfl, rfl, rfl, h.symm⟩
    · right
      refine ⟨fun hc => hadj ⟨hc.2.2.1, hc.2.2.2⟩, ?_⟩
      have hb : (A.hasCommonCorrespondent C && C.hasCommonCorrespondent B) = false := by
        cases ha : A.hasCommonCorrespondent C <;> cases hb : C.hasCommonCorrespondent B <;>
          simp_all
      simpa [hopCandidates, hn, hb] using h
  · right
    refine ⟨fun hc => hn ⟨hc.1, hc.2.1⟩, ?_⟩
    simpa [hopCandidates, hn] using h

/-- Every one-hop candidate is flagged `guaranteed`. -/
theorem hopCandidates_guaranteed (p : TransferProblem) (A B : Bank) :
    ∀ (l : List (String × Bank)) (hs : List RouteOption),
      hopCandidates p A B l = .ok hs → ∀ c ∈ hs, c.guaranteed = true := by
  intro l
  induction l with
  | nil =>
    intro hs h c hc
    simp [hopCandidates] at h
    subst h
    simp at hc
  | cons kc rest ih =>
    intro hs h c hc
    obtain ⟨name, C⟩ := kc
    rcases hopCandidates_cons_inv p A B name C rest hs h with
      ⟨_, _, _, _, c1, s1, c2, s2, more, _, _, hmore, rfl⟩ | ⟨_, hrest⟩
    · rcases List.mem_cons.mp hc with rfl | hc
      · rfl
      · exact ih more hmore c hc
    · exact ih hs hrest c hc

/-- An eligible intermediary in the map makes the one-hop list non-empty. -/
theorem hopCandidates_ne_nil (p : TransferProblem) (A B : Bank) :
    ∀ (l : List (String × Bank)) (hs : List RouteOption),
      hopCandidates p A B l = .ok hs →
      (∃ kc ∈ l, kc.1 ≠ A.name ∧ kc.1 ≠ B.name ∧ A.hasCommonCorrespondent kc.2 = true ∧
        kc.2.hasCommonCorrespondent B = true) → hs ≠ [] := by
  intro l
  induction l with
  | nil =>
    intro hs _ hex
    obtain ⟨kc, hkc, _⟩ := hex
    simp at hkc
  | cons kc rest ih =>
    intro hs h hex
    obtain ⟨name, C⟩ := kc
    rcases hopCandidates_cons_inv p A B name C rest hs h with
      ⟨_, _, _, _, c1, s1, c2, s2, more, _, _, _, rfl⟩ | ⟨hno, hrest⟩
    · simp
    · obtain ⟨kc, hkc, hcond⟩ := hex
      rcases List.mem_cons.mp hkc with rfl | hkc
      · exact absurd hcond hno
      · exact ih hs hrest ⟨kc, hkc, hcond⟩

/-- Without an eligible intermediary the loop pushes nothing (and calls no leg
pricing). -/
theorem hopCandidates_nil (p : TransferProblem) (A B : Bank) :
    ∀ l : List (String × Bank),
      (∀ kc ∈ l, kc.1 ≠ A.name → kc.1 ≠ B.name →
        ¬ (A.hasCommonCorrespondent kc.2 = true ∧ kc.2.hasCommonCorrespondent B = true)) →
      hopCandidates p A B l = .ok [] := by
  intro l
  induction l with
  | nil => intro _; simp [hopCandidates]
  | cons kc rest ih =>
    intro hall
    obtain ⟨name, C⟩ := kc
    have hrest := ih (fun kc hkc => hall kc (List.mem_cons_of_mem _ hkc))
    by_cases hn : name ≠ A.name ∧ name ≠ B.name
    · have hadj := hall (name, C) (List.mem_cons_self _ _) hn.1 hn.2
      have hb : (A.hasCommonCorrespondent C && C.hasCommonCorrespondent B) = false := by
        cases ha : A.hasCommonCorrespondent C <;> cases hb : C.hasCommonCorrespondent B <;>
          simp_all
      simpa [hopCandidates, hn, hb] using hrest
    · simpa [hopCandidates, hn] using hrest

/-- The direct candidate, when it exists, is the priced path `[source, destination]`. -/
theorem directCandidate_inv (p : TransferProblem) (A B : Bank) (ds : List RouteOption)
    (h : directCandidate p A B = .ok ds) :
    (A.hasCommonCorrespondent B = true ∧
      ∃ c s, findMinCostWithSplits p p.sourceBank p.destinationBank p.amount = .ok (c, s) ∧
        ds = [{ path := [p.sourceBank, p.destinationBank], guaranteed := true,
                commission := c, bestSplit := s }]) ∨
    (A.hasCommonCorrespondent B = false ∧ ds = []) := by
  cases hadj : A.hasCommonCorrespondent B with
  | true =>
    left
    refine ⟨rfl, ?_⟩
    cases h1 : findMinCostWithSplits p p.sourceBank p.destinationBank p.amount with
    | error e => simp [directCandidate, hadj, h1, bind, Except.bind] at h
    | ok v =>
      obtain ⟨c, s⟩ := v
      simp only [directCandidate, hadj, h1, bind, Except.bind, pure, Except.pure, if_true,
        Except.ok.injEq] at h
      exact ⟨c, s, rfl, h.symm⟩
  | false =>
    right
    refine ⟨rfl, ?_⟩
    simp only [directCandidate, hadj, pure, Except.pure, Except.ok.injEq] at h
    simpa using h.symm

/-- The candidate vector is the direct candidate (if any) followed by the one-hop
candidates in map order. -/
theorem candidates_inv (p : TransferProblem) (A B : Bank) (cs : List RouteOption)
    (hA : bankAt p.banks p.sourceBank = .ok A) (hB : bankAt p.banks p.destinationBank = .ok B)
    (h : candidates p = .ok cs) :
    ∃ ds hs, directCandidate p A B = .ok ds ∧ hopCandidates p A B p.banks = .ok hs ∧
      cs = ds ++ hs := by
  cases hd : directCandidate p A B with
  | error e => simp [candidates, hA, hB, hd, bind, Except.bind] at h
  | ok ds =>
    cases hh : hopCandidates p A B p.banks with
    | error e => simp [candidates, hA, hB, hd, hh, bind, Except.bind] at h
    | ok hs =>
      simp only [candidates, hA, hB, hd, hh, bind, Except.bind, pure, Except.pure,
        Except.ok.injEq] at h
      exact ⟨ds, hs, rfl, rfl, h.symm⟩

/-- Every generated candidate is flagged `guaranteed`. -/
theorem candidates_guaranteed (p : TransferProblem) (A B : Bank) (cs : List RouteOption)
    (hA : bankAt p.banks p.sourceBank = .ok A) (hB : bankAt p.banks p.destinationBank = .ok B)
    (h : candidates p = .ok cs) : ∀ c ∈ cs, c.guaranteed = true := by
  obtain ⟨ds, hs, hd, hh, rfl⟩ := candidates_inv p A B cs hA hB h
  intro c hc
  rcases List.mem_append.mp hc with hc | hc
  · rcases directCandidate_inv p A B ds hd with ⟨_, c0, s0, _, rfl⟩ | ⟨_, rfl⟩
    · rw [List.mem_singleton.mp hc]
    · simp at hc
  · exact hopCandidates_guaranteed p A B p.banks hs hh c hc

/-- The scan of `std::min_element` ends on an element of the range. -/
theorem minElementLoop_mem (l : List RouteOption) :
    ∀ best : RouteOption, minElementLoop best l ∈ best :: l := by
  induction l with
  | nil => intro best; simp [minElementLoop]
  | cons c rest ih =>
    intro best
    by_cases hlt : c.commission < best.commission
    · have := ih c
      simp only [minElementLoop, hlt, if_true]
      exact List.mem_cons_of_mem _ this
    · have := ih best
      simp only [minElementLoop, hlt, if_false]
      rcases List.mem_cons.mp this with h | h
      · rw [h]; exact List.mem_cons_self _ _
      · exact List.mem_cons_of_mem _ (List.mem_cons_of_mem _ h)

/-- The scan of `std::min_element` ends on an element no dearer than any other. -/
theorem minElementLoop_le (l : List RouteOption) :
    ∀ best : RouteOption, ∀ c ∈ best :: l,
      (minElementLoop best l).commission ≤ c.commission := by
  induction l with
  | nil =>
    intro best c hc
    simp only [List.mem_singleton] at hc
    simp [minElementLoop, hc]
  | cons d rest ih =>
    intro best c hc
    by_cases hlt : d.commission < best.commission
    · simp only [minElementLoop, hlt, if_true]
      rcases List.mem_cons.mp hc with rfl | hc
      · exact le_trans (ih d d (List.mem_cons_self _ _)) (le_of_lt hlt)
      · exact ih d c hc
    · simp only [minElementLoop, hlt, if_false]
      rcases List.mem_cons.mp hc with rfl | hc
      · exact ih c c (List.mem_cons_self _ _)
      · rcases List.mem_cons.mp hc with rfl | hc
        · exact le_trans (ih best best (List.mem_cons_self _ _)) (not_lt.mp hlt)
        · exact ih best c (List.mem_cons_of_mem _ hc)

/-- The result of `findBestRouteWithSplits` once the candidate vector is known. -/
theorem findBestRouteWithSplits_of_candidates (p : TransferProblem) (cs : List RouteOption)
    (h : candidates p = .ok cs) :
    findBestRouteWithSplits p =
      .ok (match minElement cs with
           | some best => best
           | none => { path := [], guaranteed := false, commission := DBL_MAX }) := by
  cases hm : minElement cs <;>
    simp [findBestRouteWithSplits, h, hm, bind, Except.bind, pure, Except.pure]

/-! ## Totality on well-formed catalogs -/

theorem bankAt_mem (banks : List (String × Bank)) (key : String) (b : Bank)
    (h : bankAt banks key = .ok b) : (key, b) ∈ banks := by
  induction banks with
  | nil => simp [bankAt] at h
  | cons kb rest ih =>
    obtain ⟨k, b0⟩ := kb
    by_cases hk : k = key
    · simp only [bankAt, hk, if_true, Except.ok.injEq] at h
      rw [← h, hk]
      exact List.mem_cons_self _ _
    · simp only [bankAt, hk, if_false] at h
      exact List.mem_cons_of_mem _ (ih h)

theorem bankAt_of_mem (banks : List (String × Bank)) (key : String) (b : Bank)
    (h : (key, b) ∈ banks) : ∃ b0, bankAt banks key = .ok b0 := by
  induction banks with
  | nil => simp at h
  | cons kb rest ih =>
    obtain ⟨k, b1⟩ := kb
    by_cases hk : k = key
    · exact ⟨b1, by simp [bankAt, hk]⟩
    · rcases List.mem_cons.mp h with heq | hmem
      · exact absurd (congrArg Prod.fst heq).symm hk
      · obtain ⟨b0, hb0⟩ := ih hmem
        exact ⟨b0, by simpa [bankAt, hk] using hb0⟩

/-- The split search returns whenever the leg can be priced. -/
theorem findMinCostWithSplits_total (p : TransferProblem) (fromBank toBank : String)
    (totalAmount : ℚ) (fromB toB : Bank)
    (hf : bankAt p.banks fromBank = .ok fromB) (ht : bankAt p.banks toBank = .ok toB)
    (ho : fromB.outputCommission.tiers ≠ []) (hi : toB.inputCommission.tiers ≠ []) :
    ∃ v, findMinCostWithSplits p fromBank toBank totalAmount = .ok v := by
  obtain ⟨legCost, hleg⟩ := calculateTotalCommission_total p fromBank toBank fromB toB hf ht ho hi
  obtain ⟨c, s, hrun, _⟩ :=
    findMinCostWithSplits_spec p fromBank toBank totalAmount
      (fun k => (k : ℚ) * legCost (totalAmount / (k : ℚ)))
      (fun k => partsLoop_product p fromBank toBank legCost hleg _ k)
  exact ⟨(c, s), hrun⟩

/-- On a well-formed catalog every pair of keys is a leg the split search prices. -/
theorem findMinCostWithSplits_total_of_wellFormed (p : TransferProblem) (hwf : WellFormed p)
    (fromBank toBank : String) (totalAmount : ℚ) (fromB toB : Bank)
    (hf : (fromBank, fromB) ∈ p.banks) (ht : (toBank, toB) ∈ p.banks) :
    ∃ v, findMinCostWithSplits p fromBank toBank totalAmount = .ok v := by
  obtain ⟨f0, hf0⟩ := bankAt_of_mem p.banks fromBank fromB hf
  obtain ⟨t0, ht0⟩ := bankAt_of_mem p.banks toBank toB ht
  exact findMinCostWithSplits_total p fromBank toBank totalAmount f0 t0 hf0 ht0
    (hwf _ (bankAt_mem _ _ _ hf0)).2.2 (hwf _ (bankAt_mem _ _ _ ht0)).2.1

theorem hopCandidates_total (p : TransferProblem) (hwf : WellFormed p) (A B : Bank)
    (hA : (A.name, A) ∈ p.banks) (hB : (B.name, B) ∈ p.banks) :
    ∀ l : List (String × Bank), (∀ kb ∈ l, kb ∈ p.banks) →
      ∃ hs, hopCandidates p A B l = .ok hs := by
  intro l
  induction l with
  | nil => intro _; exact ⟨[], by simp [hopCandidates]⟩
  | cons kc rest ih =>
    intro hsub
    obtain ⟨name, C⟩ := kc
    obtain ⟨more, hmore⟩ := ih (fun kb hkb => hsub kb (List.mem_cons_of_mem _ hkb))
    have hC : (name, C) ∈ p.banks := hsub _ (List.mem_cons_self _ _)
    have hCn : C.name = name := (hwf _ hC).1
    by_cases hn : name ≠ A.name ∧ name ≠ B.name
    · cases hadj : (A.hasCommonCorrespondent C && C.hasCommonCorrespondent B) with
      | false => exact ⟨more, by simpa [hopCandidates, hn, hadj] using hmore⟩
      | true =>
        obtain ⟨v1, h1⟩ := findMinCostWithSplits_total_of_wellFormed p hwf A.name C.name
          p.amount A C hA (by rw [hCn]; exact hC)
        obtain ⟨v2, h2⟩ := findMinCostWithSplits_total_of_wellFormed p hwf C.name B.name
          p.amount C B (by rw [hCn]; exact hC) hB
        refine ⟨{ path := [A.name, C.name, B.name], guaranteed := true,
                  commission := v1.1 + v2.1, bestSplit := min v1.2 v2.2 } :: more, ?_⟩
        rw [hopCandidates, if_pos hn]
        simp only [hadj, if_true, h1, h2, hmore, bind, Except.bind, pure, Except.pure]
    · exact ⟨more, by simpa [hopCandidates, hn] using hmore⟩

/-- On a well-formed catalog with source and destination present the candidate vector
is always generated, and `findBestRouteWithSplits` returns a value. -/
theorem findBestRouteWithSplits_total (p : TransferProblem) (hwf : WellFormed p) (A B : Bank)
    (hA : bankAt p.banks p.sourceBank = .ok A) (hB : bankAt p.banks p.destinationBank = .ok B) :
    ∃ cs r, candidates p = .ok cs ∧ findBestRouteWithSplits p = .ok r := by
  have hAm := bankAt_mem _ _ _ hA
  have hBm := bankAt_mem _ _ _ hB
  have hAn : A.name = p.sourceBank := (hwf _ hAm).1
  have hBn : B.name = p.destinationBank := (hwf _ hBm).1
  obtain ⟨hs, hh⟩ := hopCandidates_total p hwf A B (by rw [hAn]; exact hAm)
    (by rw [hBn]; exact hBm) p.banks (fun _ h => h)
  obtain ⟨v, hv⟩ := findMinCostWithSplits_total_of_wellFormed p hwf p.sourceBank
    p.destinationBank p.amount A B hAm hBm
  have hd : ∃ ds, directCandidate p A B = .ok ds := by
    cases hadj : A.hasCommonCorrespondent B with
    | false => exact ⟨[], by simp [directCandidate, hadj, pure, Except.pure]⟩
    | true =>
      exact ⟨[{ path := [p.sourceBank, p.destinationBank], guaranteed := true,
                commission := v.1, bestSplit := v.2 }],
        by simp only [directCandidate, hadj, if_true, hv, bind, Except.bind, pure,
          Except.pure]⟩
  obtain ⟨ds, hds⟩ := hd
  have hc : candidates p = .ok (ds ++ hs) := by
    simp only [candidates, hA, hB, hds, hh, bind, Except.bind, pure, Except.pure]
  exact ⟨_, _, hc, findBestRouteWithSplits_of_candidates p _ hc⟩

/-! ## The example scenario, evaluated -/

theorem exProblem_leg_A_B (x : ℚ) :
    calculateTotalCommission exProblem "A" "B" x =
      .ok (2 + x * (1 / 100) + 5 + (1 + x * (2 / 100))) := by
  have h := calculateTotalCommission_ok exProblem "A" "B" x exA exB
    (2 + x * (1 / 100)) (1 + x * (2 / 100))
    (by simp [bankAt, exProblem]) (by simp [bankAt, exProblem])
    (by by_cases hx : x ≤ 1000 <;>
          simp [exA, PiecewiseCommission.calculate, PiecewiseCommission.calculateLoop, back, hx])
    (by by_cases hx : x ≤ 1000 <;>
          simp [exB, PiecewiseCommission.calculate, PiecewiseCommission.calculateLoop, back, hx])
  rw [h]
  simp [exA, exB, TransferProblem.getBorderFee, getBorderFeeLoop, exProblem]

theorem exProblem_leg_C_B (x : ℚ) :
    calculateTotalCommission exProblem "C" "B" x =
      .ok (0 + x * (5 / 1000) + 5 + (1 + x * (2 / 100))) := by
  have h := calculateTotalCommission_ok exProblem "C" "B" x exC exB
    (0 + x * (5 / 1000)) (1 + x * (2 / 100))
    (by simp [bankAt, exProblem]) (by simp [bankAt, exProblem])
    (by by_cases hx : x ≤ 1000 <;>
          simp [exC, PiecewiseCommission.calculate, PiecewiseCommission.calculateLoop, back, hx])
    (by by_cases hx : x ≤ 1000 <;>
          simp [exB, PiecewiseCommission.calculate, PiecewiseCommission.calculateLoop, back, hx])
  rw [h]
  simp [exC, exB, TransferProblem.getBorderFee, getBorderFeeLoop, exProblem]

theorem exProblem_split_A_B :
    findMinCostWithSplits exProblem "A" "B" 1000 = .ok (38, 1) := by
  simp only [findMinCostWithSplits, splitLoop,
    partsLoop_product exProblem "A" "B" _ exProblem_leg_A_B, bind, Except.bind, DBL_MAX]
  norm_num

theorem exProblem_split_A_C :
    findMinCostWithSplits exProblem "A" "C" 1000 = .ok (17, 1) := by
  simp only [findMinCostWithSplits, splitLoop,
    partsLoop_product exProblem "A" "C" _ exProblem_leg_A_C, bind, Except.bind, DBL_MAX]
  norm_num

theorem exProblem_split_C_B :
    findMinCostWithSplits exProblem "C" "B" 1000 = .ok (31, 1) := by
  simp only [findMinCostWithSplits, splitLoop,
    partsLoop_product exProblem "C" "B" _ exProblem_leg_C_B, bind, Except.bind, DBL_MAX]
  norm_num

theorem exProblem_source : bankAt exProblem.banks exProblem.sourceBank = .ok exA := by
  simp [bankAt, exProblem]

theorem exProblem_destination :
    bankAt exProblem.banks exProblem.destinationBank = .ok exB := by
  simp [bankAt, exProblem]

/-- In the example `A` and `B` share the correspondent `C`, while `A` (correspondents
`{C}`) and `C` (correspondents `{A, B}`) share none. -/
theorem exProblem_adjacency :
    exA.hasCommonCorrespondent exB = true ∧ exA.hasCommonCorrespondent exC = false ∧
    exC.hasCommonCorrespondent exB = false := by
  decide

/-- The candidate vector of the example holds the direct route only, priced at 38. -/
theorem exProblem_candidates :
    candidates exProblem =
      .ok [{ path := ["A", "B"], guaranteed := true, commission := 38, bestSplit := 1 }] := by
  have hd : directCandidate exProblem exA exB =
      .ok [{ path := ["A", "B"], guaranteed := true, commission := 38, bestSplit := 1 }] := by
    have h : findMinCostWithSplits exProblem exProblem.sourceBank exProblem.destinationBank
        exProblem.amount = .ok (38, 1) := exProblem_split_A_B
    simp only [directCandidate, exProblem_adjacency.1, if_true, h, bind, Except.bind, pure,
      Except.pure]
    rfl
  have hh : hopCandidates exProblem exA exB exProblem.banks = .ok [] := by
    apply hopCandidates_nil
    intro kc hkc h1 h2
    have hcases : kc = ("A", exA) ∨ kc = ("B", exB) ∨ kc = ("C", exC) := by
      simpa [exProblem] using hkc
    rcases hcases with rfl | rfl | rfl
    · exact absurd rfl h1
    · exact absurd rfl h2
    · simp [exProblem_adjacency.2.1]
  simp only [candidates, exProblem_source, exProblem_destination, hd, hh, bind, Except.bind,
    pure, Except.pure, List.append_nil]

/-! ## The hub catalog, evaluated -/

theorem exHub_leg_A_B (x : ℚ) :
    calculateTotalCommission exHub "A" "B" x =
      .ok (2 + x * (1 / 100) + 50 + (1 + x * (2 / 100))) := by
  have h := calculateTotalCommission_ok exHub "A" "B" x hubA hubB
    (2 + x * (1 / 100)) (1 + x * (2 / 100))
    (by simp [bankAt, exHub]) (by simp [bankAt, exHub])
    (by by_cases hx : x ≤ 1000 <;>
          simp [hubA, exA, PiecewiseCommission.calculate, PiecewiseCommission.calculateLoop,
            back, hx])
    (by by_cases hx : x ≤ 1000 <;>
          simp [hubB, exB, PiecewiseCommission.calculate, PiecewiseCommission.calculateLoop,
            back, hx])
  rw [h]
  simp [hubA, hubB, exA, exB, TransferProblem.getBorderFee, getBorderFeeLoop, exHub]

theorem exHub_leg_A_C (x : ℚ) :
    calculateTotalCommission exHub "A" "C" x =
      .ok (2 + x * (1 / 100) + 0 + (0 + x * (5 / 1000))) := by
  have h := calculateTotalCommission_ok exHub "A" "C" x hubA hubC
    (2 + x * (1 / 100)) (0 + x * (5 / 1000))
    (by simp [bankAt, exHub]) (by simp [bankAt, exHub])
    (by by_cases hx : x ≤ 1000 <;>
          simp [hubA, exA, PiecewiseCommission.calculate, PiecewiseCommission.calculateLoop,
            back, hx])
    (by by_cases hx : x ≤ 1000 <;>
          simp [hubC, exC, PiecewiseCommission.calculate, PiecewiseCommission.calculateLoop,
            back, hx])
  rw [h]
  simp [hubA, hubC, exA, exC, TransferProblem.getBorderFee, getBorderFeeLoop, exHub]

theorem exHub_leg_C_B (x : ℚ) :
    calculateTotalCommission exHub "C" "B" x =
      .ok (0 + x * (5 / 1000) + 0 + (1 + x * (2 / 100))) := by
  have h := calculateTotalCommission_ok exHub "C" "B" x hubC hubB
    (0 + x * (5 / 1000)) (1 + x * (2 / 100))
    (by simp [bankAt, exHub]) (by simp [bankAt, exHub])
    (by by_cases hx : x ≤ 1000 <;>
          simp [hubC, exC, PiecewiseCommission.calculate, PiecewiseCommission.calculateLoop,
            back, hx])
    (by by_cases hx : x ≤ 1000 <;>
          simp [hubB, exB, PiecewiseCommission.calculate, PiecewiseCommission.calculateLoop,
            back, hx])
  rw [h]
  simp [hubC, hubB, exC, exB, TransferProblem.getBorderFee, getBorderFeeLoop, exHub]

theorem exHub_split_A_B : findMinCostWithSplits exHub "A" "B" 1000 = .ok (83, 1) := by
  simp only [findMinCostWithSplits, splitLoop,
    partsLoop_product exHub "A" "B" _ exHub_leg_A_B, bind, Except.bind, DBL_MAX]
  norm_num

theorem exHub_split_A_C : findMinCostWithSplits exHub "A" "C" 1000 = .ok (17, 1) := by
  simp only [findMinCostWithSplits, splitLoop,
    partsLoop_product exHub "A" "C" _ exHub_leg_A_C, bind, Except.bind, DBL_MAX]
  norm_num

theorem exHub_split_C_B : findMinCostWithSplits exHub "C" "B" 1000 = .ok (26, 1) := by
  simp only [findMinCostWithSplits, splitLoop,
    partsLoop_product exHub "C" "B" _ exHub_leg_C_B, bind, Except.bind, DBL_MAX]
  norm_num

theorem exHub_source : bankAt exHub.banks exHub.sourceBank = .ok hubA := by
  simp [bankAt, exHub]

theorem exHub_destination : bankAt exHub.banks exHub.destinationBank = .ok hubB := by
  simp [bankAt, exHub]

/-- The candidate vector of the hub request: the direct route at 83, then the route
through `C` at `17 + 26`. -/
theorem exHub_candidates :
    candidates exHub =
      .ok [{ path := ["A", "B"], guaranteed := true, commission := 83, bestSplit := 1 },
           { path := ["A", "C", "B"], guaranteed := true, commission := 17 + 26,
             bestSplit := 1 }] := by
  have hAB : hubA.hasCommonCorrespondent hubB = true := by decide
  have hAC : hubA.hasCommonCorrespondent hubC = true := by decide
  have hCB : hubC.hasCommonCorrespondent hubB = true := by decide
  have hd : directCandidate exHub hubA hubB =
      .ok [{ path := ["A", "B"], guaranteed := true, commission := 83, bestSplit := 1 }] := by
    have h : findMinCostWithSplits exHub exHub.sourceBank exHub.destinationBank
        exHub.amount = .ok (83, 1) := exHub_split_A_B
    simp only [directCandidate, hAB, if_true, h, bind, Except.bind, pure, Except.pure]
    rfl
  have h1 : findMinCostWithSplits exHub hubA.name hubC.name exHub.amount = .ok (17, 1) :=
    exHub_split_A_C
  have h2 : findMinCostWithSplits exHub hubC.name hubB.name exHub.amount = .ok (26, 1) :=
    exHub_split_C_B
  have hnA : ¬ ("A" ≠ hubA.name ∧ "A" ≠ hubB.name) := by decide
  have hnB : ¬ ("B" ≠ hubA.name ∧ "B" ≠ hubB.name) := by decide
  have hnC : "C" ≠ hubA.name ∧ "C" ≠ hubB.name := by decide
  have hh : hopCandidates exHub hubA hubB exHub.banks =
      .ok [{ path := ["A", "C", "B"], guaranteed := true, commission := 17 + 26,
             bestSplit := 1 }] := by
    have hb : exHub.banks = [("A", hubA), ("B", hubB), ("C", hubC)] := rfl
    rw [hb, hopCandidates, if_neg hnA, hopCandidates, if_neg hnB, hopCandidates, if_pos hnC]
    simp only [hAC, hCB, Bool.and_self, if_true, h1, h2, hopCandidates, bind, Except.bind,
      pure, Except.pure]
    rfl
  simp only [candidates, exHub_source, exHub_destination, hd, hh, bind, Except.bind,
    pure, Except.pure]
  rfl

/-! ## Route selection -/

/-- C4: when source and destination are resolved and the candidate vector is generated
with at least one entry (the direct candidate, or an intermediary other than source and
destination adjacent to both), `findBestRouteWithSplits` returns a `guaranteed`
candidate whose commission is at most that of every generated candidate. -/
theorem findBestRouteWithSplits_minimal (p : TransferProblem) (A B : Bank)
    (cs : List RouteOption)
    (hA : bankAt p.banks p.sourceBank = .ok A) (hB : bankAt p.banks p.destinationBank = .ok B)
    (hc : candidates p = .ok cs)
    (hgen : A.hasCommonCorrespondent B = true ∨
      ∃ kc ∈ p.banks, kc.1 ≠ A.name ∧ kc.1 ≠ B.name ∧
        A.hasCommonCorrespondent kc.2 = true ∧ kc.2.hasCommonCorrespondent B = true) :
    ∃ r, findBestRouteWithSplits p = .ok r ∧ r.guaranteed = true ∧ r ∈ cs ∧
      (∀ c ∈ cs, r.commission ≤ c.commission) ∧ (∃ c ∈ cs, r.commission = c.commission) := by
  obtain ⟨ds, hs, hd, hh, hcs⟩ := candidates_inv p A B cs hA hB hc
  have hne : cs ≠ [] := by
    rcases hgen with hdir | hhop
    · rcases directCandidate_inv p A B ds hd with ⟨_, c0, s0, _, hds⟩ | ⟨hno, _⟩
      · rw [hcs, hds]; simp
      · rw [hdir] at hno; cases hno
    · have := hopCandidates_ne_nil p A B p.banks hs hh hhop
      rw [hcs]
      intro hnil
      exact this (List.append_eq_nil.mp hnil).2
  cases cs with
  | nil => exact absurd rfl hne
  | cons c0 rest =>
    have hmem := minElementLoop_mem rest c0
    refine ⟨minElementLoop c0 rest, ?_, ?_, hmem, minElementLoop_le rest c0, _, hmem, rfl⟩
    · rw [findBestRouteWithSplits_of_candidates p _ hc]
      rfl
    · exact candidates_guaranteed p A B _ hA hB hc _ hmem

/-- C4 at the hub request: of the direct candidate (83) and the candidate through `C`
(43) a `guaranteed` one of minimal commission is returned. -/
theorem findBestRouteWithSplits_minimal_witness :
    ∃ r, findBestRouteWithSplits exHub = .ok r ∧ r.guaranteed = true ∧
      r ∈ [({ path := ["A", "B"], guaranteed := true, commission := 83, bestSplit := 1 } :
              RouteOption),
           { path := ["A", "C", "B"], guaranteed := true, commission := 17 + 26,
             bestSplit := 1 }] ∧
      (∀ c ∈ [({ path := ["A", "B"], guaranteed := true, commission := 83, bestSplit := 1 } :
              RouteOption),
           { path := ["A", "C", "B"], guaranteed := true, commission := 17 + 26,
             bestSplit := 1 }], r.commission ≤ c.commission) ∧
      (∃ c ∈ [({ path := ["A", "B"], guaranteed := true, commission := 83, bestSplit := 1 } :
              RouteOption),
           { path := ["A", "C", "B"], guaranteed := true, commission := 17 + 26,
             bestSplit := 1 }], r.commission = c.commission) :=
  findBestRouteWithSplits_minimal exHub hubA hubB _ exHub_source exHub_destination
    exHub_candidates (Or.inl (by decide))

/-- C5: when source and destination are resolved, share no correspondent, and no map
entry other than source and destination is adjacent to both, `findBestRouteWithSplits`
returns normally, with the value `{path = {}, guaranteed = false, commission =
DBL_MAX, bestSplit = 1}`. -/
theorem findBestRouteWithSplits_no_route (p : TransferProblem) (A B : Bank)
    (hA : bankAt p.banks p.sourceBank = .ok A) (hB : bankAt p.banks p.destinationBank = .ok B)
    (hdirect : A.hasCommonCorrespondent B = false)
    (hhop : ∀ kc ∈ p.banks, kc.1 ≠ A.name → kc.1 ≠ B.name →
      ¬ (A.hasCommonCorrespondent kc.2 = true ∧ kc.2.hasCommonCorrespondent B = true)) :
    ∃ r, findBestRouteWithSplits p = .ok r ∧ r.guaranteed = false ∧ r.path = [] ∧
      r = { path := [], guaranteed := false, commission := DBL_MAX, bestSplit := 1 } := by
  have hc : candidates p = .ok [] := by
    simp [candidates, hA, hB, directCandidate, hdirect, hopCandidates_nil p A B p.banks hhop,
      bind, Except.bind, pure, Except.pure]
  refine ⟨_, findBestRouteWithSplits_of_candidates p [] hc, rfl, rfl, rfl⟩

/-- C5 at `exIsolated`: `D` shares a correspondent with neither `A` nor `C`. -/
theorem findBestRouteWithSplits_no_route_witness :
    ∃ r, findBestRouteWithSplits exIsolated = .ok r ∧ r.guaranteed = false ∧ r.path = [] ∧
      r = { path := [], guaranteed := false, commission := DBL_MAX, bestSplit := 1 } :=
  findBestRouteWithSplits_no_route exIsolated exA exD
    (by simp [bankAt, exIsolated]) (by simp [bankAt, exIsolated])
    (by decide)
    (by
      intro kc hkc h1 h2
      have hcases : kc = ("A", exA) ∨ kc = ("C", exC) ∨ kc = ("D", exD) := by
        simpa [exIsolated] using hkc
      rcases hcases with rfl | rfl | rfl
      · exact absurd rfl h1
      · have : exC.hasCommonCorrespondent exD = false := by decide
        simp [this]
      · exact absurd rfl h2)

/-- C6, as stated, fails: in the example `A` and `B` do share a correspondent (`C`), so
the direct candidate exists, and the returned path is not `[A, C, B]`. -/
theorem example_scenario_counterexample :
    ¬ (exA.hasCommonCorrespondent exB = false) ∧
    ¬ (∃ r, findBestRouteWithSplits exProblem = .ok r ∧ r.guaranteed = true ∧
        r.path = ["A", "C", "B"]) := by
  constructor
  · rw [exProblem_adjacency.1]; simp
  · rintro ⟨r, hr, _, hpath⟩
    rw [findBestRouteWithSplits_of_candidates exProblem _ exProblem_candidates] at hr
    simp only [minElement, minElementLoop, Except.ok.injEq] at hr
    rw [← hr] at hpath
    simp at hpath

/-- C6, amended: in the example `A` and `B` share the correspondent `C`, so the direct
candidate `[A, B]` is generated (best split 1, commission 38); `C` is not an eligible
intermediary, because `A` and `C` share no correspondent; `findBestRouteWithSplits`
returns `guaranteed = true` with path `[A, B]`. -/
theorem example_scenario_direct_route :
    exA.hasCommonCorrespondent exB = true ∧ exA.hasCommonCorrespondent exC = false ∧
    candidates exProblem =
      .ok [{ path := ["A", "B"], guaranteed := true, commission := 38, bestSplit := 1 }] ∧
    findBestRouteWithSplits exProblem =
      .ok { path := ["A", "B"], guaranteed := true, commission := 38, bestSplit := 1 } := by
  refine ⟨exProblem_adjacency.1, exProblem_adjacency.2.1, exProblem_candidates, ?_⟩
  rw [findBestRouteWithSplits_of_candidates exProblem _ exProblem_candidates]
  rfl

/-! ## Shared correspondents -/

theorem hasCommonLoop_iff (other : List String) (mine : List String) :
    hasCommonLoop other mine = true ↔ ∃ c, c ∈ mine ∧ c ∈ other := by
  induction mine with
  | nil => simp [hasCommonLoop]
  | cons c rest ih =>
    by_cases hc : c ∈ other
    · simp only [hasCommonLoop, hc, if_true, true_iff]
      exact ⟨c, List.mem_cons_self _ _, hc⟩
    · simp only [hasCommonLoop, hc, if_false, ih]
      constructor
      · rintro ⟨d, hd1, hd2⟩
        exact ⟨d, List.mem_cons_of_mem _ hd1, hd2⟩
      · rintro ⟨d, hd1, hd2⟩
        rcases List.mem_cons.mp hd1 with rfl | hd1
        · exact absurd hd2 hc
        · exact ⟨d, hd1, hd2⟩

/-- C11: `a.hasCommonCorrespondent(b)` is true exactly when some name occurs in both
correspondent lists; the names of `a` and `b` themselves play no part. -/
theorem hasCommonCorrespondent_iff_common_name (a b : Bank) :
    (a.hasCommonCorrespondent b = true ↔
      ∃ c, c ∈ a.correspondents ∧ c ∈ b.correspondents) ∧
    (∀ (n1 n2 : String),
      Bank.hasCommonCorrespondent { a with name := n1 } { b with name := n2 } =
        a.hasCommonCorrespondent b) :=
  ⟨hasCommonLoop_iff b.correspondents a.correspondents, fun _ _ => rfl⟩

/-- C12: `hasCommonCorrespondent` gives the same answer in both call directions. -/
theorem hasCommonCorrespondent_symm (a b : Bank) :
    a.hasCommonCorrespondent b = b.hasCommonCorrespondent a := by
  have h1 := hasCommonLoop_iff b.correspondents a.correspondents
  have h2 := hasCommonLoop_iff a.correspondents b.correspondents
  have h : a.hasCommonCorrespondent b = true ↔ b.hasCommonCorrespondent a = true := by
    unfold Bank.hasCommonCorrespondent
    rw [h1, h2]
    constructor <;> rintro ⟨c, hc1, hc2⟩ <;> exact ⟨c, hc2, hc1⟩
  cases hab : a.hasCommonCorrespondent b <;> cases hba : b.hasCommonCorrespondent a <;>
    simp_all

/-! ## Sorted schedules -/

/-- C19: on a schedule sorted ascending by threshold, for an amount not above the largest
threshold, `calculate` returns the fee of a tier whose threshold is the least
threshold of the schedule that is `>= amount`. -/
theorem calculate_sorted_tightest (pc : PiecewiseCommission) (amount : ℚ)
    (hsorted : List.Pairwise (fun t u : Tier => t.threshold ≤ u.threshold) pc.tiers)
    (hmax : ∃ u ∈ pc.tiers, amount ≤ u.threshold) :
    ∃ t ∈ pc.tiers, amount ≤ t.threshold ∧
      (∀ u ∈ pc.tiers, amount ≤ u.threshold → t.threshold ≤ u.threshold) ∧
      pc.calculate amount = .ok (t.fixedFee + amount * t.percent) := by
  obtain ⟨tiers⟩ := pc
  simp only at hsorted hmax ⊢
  induction tiers with
  | nil =>
    obtain ⟨u, hu, _⟩ := hmax
    simp at hu
  | cons t rest ih =>
    by_cases ht : amount ≤ t.threshold
    · refine ⟨t, List.mem_cons_self _ _, ht, ?_, ?_⟩
      · intro u hu _
        rcases List.mem_cons.mp hu with rfl | hu
        · exact le_refl _
        · exact (List.pairwise_cons.mp hsorted).1 u hu
      · simp [PiecewiseCommission.calculate, PiecewiseCommission.calculateLoop, ht]
    · have hmax2 : ∃ u ∈ rest, amount ≤ u.threshold := by
        obtain ⟨u, hu, hle⟩ := hmax
        rcases List.mem_cons.mp hu with rfl | hu
        · exact absurd hle ht
        · exact ⟨u, hu, hle⟩
      obtain ⟨t2, ht2, hle2, hleast, hcalc⟩ := ih (List.pairwise_cons.mp hsorted).2 hmax2
      refine ⟨t2, List.mem_cons_of_mem _ ht2, hle2, ?_, ?_⟩
      · intro u hu hle
        rcases List.mem_cons.mp hu with rfl | hu
        · exact absurd hle ht
        · exact hleast u hu hle
      · have hne : PiecewiseCommission.calculateLoop amount rest ≠ none := by
          intro hnone
          obtain ⟨u, hu, hle⟩ := hmax2
          exact (calculateLoop_none_iff amount rest).mp hnone u hu hle
        cases hl : PiecewiseCommission.calculateLoop amount rest with
        | none => exact absurd hl hne
        | some fee =>
          simp only [PiecewiseCommission.calculate, hl] at hcalc
          simp only [PiecewiseCommission.calculate, PiecewiseCommission.calculateLoop, ht,
            if_false, hl]
          exact hcalc

/-! ## Linear legs -/

/-- A single-tier schedule charges its one tier for every amount, whatever the
threshold. -/
theorem calculate_single_tier (pc : PiecewiseCommission) (t : Tier) (x : ℚ)
    (h : pc.tiers = [t]) : pc.calculate x = .ok (t.fixedFee + x * t.percent) := by
  by_cases hx : x ≤ t.threshold <;>
    simp [PiecewiseCommission.calculate, PiecewiseCommission.calculateLoop, back, h, hx]

/-- Split search on a leg with single-tier schedules: when the fixed part of the leg cost
is non-negative and the unsplit cost is below the sentinel, no split is strictly
cheaper, so the unsplit cost and split count 1 are returned. -/
theorem findMinCostWithSplits_single_tier (p : TransferProblem) (fromBank toBank : String)
    (totalAmount : ℚ) (fromB toB : Bank) (tOut tIn : Tier)
    (hf : bankAt p.banks fromBank = .ok fromB) (ht : bankAt p.banks toBank = .ok toB)
    (ho : fromB.outputCommission.tiers = [tOut]) (hi : toB.inputCommission.tiers = [tIn])
    (hfix : 0 ≤ tOut.fixedFee + tIn.fixedFee +
      (if fromB.country ≠ toB.country then p.getBorderFee fromB.country toB.country else 0))
    (hlt : tOut.fixedFee + totalAmount * tOut.percent +
      (if fromB.country ≠ toB.country then p.getBorderFee fromB.country toB.country else 0) +
      (tIn.fixedFee + totalAmount * tIn.percent) < DBL_MAX) :
    findMinCostWithSplits p fromBank toBank totalAmount =
      .ok (tOut.fixedFee + totalAmount * tOut.percent +
        (if fromB.country ≠ toB.country then p.getBorderFee fromB.country toB.country else 0) +
        (tIn.fixedFee + totalAmount * tIn.percent), 1) := by
  set border : ℚ :=
    (if fromB.country ≠ toB.country then p.getBorderFee fromB.country toB.country else 0)
    with hborder
  have hleg : ∀ x, calculateTotalCommission p fromBank toBank x =
      .ok (tOut.fixedFee + x * tOut.percent + border + (tIn.fixedFee + x * tIn.percent)) :=
    fun x => calculateTotalCommission_ok p fromBank toBank x fromB toB _ _ hf ht
      (calculate_single_tier _ tOut x ho) (calculate_single_tier _ tIn x hi)
  have hcost : ∀ k : Nat, 1 ≤ k →
      (k : ℚ) * (tOut.fixedFee + totalAmount / (k : ℚ) * tOut.percent + border +
        (tIn.fixedFee + totalAmount / (k : ℚ) * tIn.percent)) =
      (k : ℚ) * (tOut.fixedFee + tIn.fixedFee + border) +
        totalAmount * (tOut.percent + tIn.percent) := by
    intro k hk
    have hk0 : (k : ℚ) ≠ 0 := by
      have : (0 : ℚ) < (k : ℚ) := by exact_mod_cast hk
      exact ne_of_gt this
    field_simp
    ring
  obtain ⟨c, s, hrun, _, hmin, hcase⟩ :=
    findMinCostWithSplits_spec p fromBank toBank totalAmount
      (fun k => (k : ℚ) * (tOut.fixedFee + totalAmount / (k : ℚ) * tOut.percent + border +
        (tIn.fixedFee + totalAmount / (k : ℚ) * tIn.percent)))
      (fun k => partsLoop_product p fromBank toBank _ hleg _ k)
  have h1 := hcost 1 (le_refl 1)
  simp only [Nat.cast_one, one_mul, div_one] at h1
  rcases hcase with ⟨_, _, hall⟩ | ⟨hs1, hs10, hc, _, hfirst⟩
  · have := hall 1 (le_refl 1) (by norm_num)
    simp only [Nat.cast_one, one_mul, div_one] at this
    exact absurd hlt (not_lt.mpr this)
  · have hs : s = 1 := by
      by_contra hne
      have h2 : 1 < s := by omega
      have hlt1 := hfirst 1 (le_refl 1) h2
      simp only [Nat.cast_one, one_mul, div_one] at hlt1
      rw [hc, hcost s hs1, h1] at hlt1
      have hsq : (1 : ℚ) ≤ (s : ℚ) := by exact_mod_cast hs1
      nlinarith
    subst hs
    rw [hrun, hc]
    simp

/-- In the exact-arithmetic embedding: on a leg whose sender outbound schedule and
receiver inbound schedule are single tiers, with the two fixed fees plus the
applicable border fee non-negative and the unsplit leg cost below the sentinel, the
split search returns the unsplit leg cost with split count 1.  The program's rounded
arithmetic is treated in the namespace `IEEE`. -/
theorem findMinCostWithSplits_exact_linear_leg (p : TransferProblem) (fromBank toBank : String)
    (totalAmount : ℚ) (fromB toB : Bank) (tOut tIn : Tier)
    (hf : bankAt p.banks fromBank = .ok fromB) (ht : bankAt p.banks toBank = .ok toB)
    (ho : fromB.outputCommission.tiers = [tOut]) (hi : toB.inputCommission.tiers = [tIn])
    (hfix : 0 ≤ tOut.fixedFee + tIn.fixedFee +
      (if fromB.country ≠ toB.country then p.getBorderFee fromB.country toB.country else 0))
    (hbound : ∀ c, calculateTotalCommission p fromBank toBank totalAmount = .ok c →
      c < DBL_MAX) :
    ∃ unsplit, calculateTotalCommission p fromBank toBank totalAmount = .ok unsplit ∧
      findMinCostWithSplits p fromBank toBank totalAmount = .ok (unsplit, 1) := by
  have hun := calculateTotalCommission_ok p fromBank toBank totalAmount fromB toB _ _ hf ht
    (calculate_single_tier _ tOut totalAmount ho) (calculate_single_tier _ tIn totalAmount hi)
  exact ⟨_, hun, findMinCostWithSplits_single_tier p fromBank toBank totalAmount fromB toB
    tOut tIn hf ht ho hi hfix (hbound _ hun)⟩

/-- C15, as stated, fails: the unsplit leg cost of `A → C` in the example is 17, not
12. -/
theorem example_leg_counterexample :
    calculateTotalCommission exProblem "A" "C" 1000 = .ok 17 ∧
    calculateTotalCommission exProblem "A" "C" 1000 ≠ .ok 12 := by
  have h : calculateTotalCommission exProblem "A" "C" 1000 = .ok 17 := by
    rw [exProblem_leg_A_C]
    norm_num
  refine ⟨h, ?_⟩
  rw [h]
  intro hc
  injection hc with hc
  norm_num at hc

/-- C15, amended: in the example the unsplit leg cost of `A → C` is 17: the outbound fee
of `A`, `2 + 0.01 * 1000 = 12`, no border fee (both in `X`), plus the inbound fee of
`C`, `0 + 0.005 * 1000 = 5`. -/
theorem example_leg_A_C_cost :
    exA.outputCommission.calculate 1000 = .ok 12 ∧
    exC.inputCommission.calculate 1000 = .ok 5 ∧
    exA.country = exC.country ∧
    calculateTotalCommission exProblem "A" "C" 1000 = .ok (12 + 0 + 5) := by
  refine ⟨?_, ?_, rfl, ?_⟩
  · rw [calculate_single_tier exA.outputCommission ⟨1000, 2, 1 / 100⟩ 1000 rfl]
    norm_num
  · rw [calculate_single_tier exC.inputCommission ⟨1000, 0, 5 / 1000⟩ 1000 rfl]
    norm_num
  · rw [exProblem_leg_A_C]
    norm_num

/-! ## Shape of the returned route -/

/-- Every one-hop candidate comes from a map entry other than source and destination,
adjacent to both, and carries the two leg results. -/
theorem hopCandidates_shape (p : TransferProblem) (A B : Bank) :
    ∀ (l : List (String × Bank)) (hs : List RouteOption),
      hopCandidates p A B l = .ok hs → ∀ c ∈ hs,
      ∃ k C c1 s1 c2 s2, (k, C) ∈ l ∧ k ≠ A.name ∧ k ≠ B.name ∧
        A.hasCommonCorrespondent C = true ∧ C.hasCommonCorrespondent B = true ∧
        findMinCostWithSplits p A.name C.name p.amount = .ok (c1, s1) ∧
        findMinCostWithSplits p C.name B.name p.amount = .ok (c2, s2) ∧
        c = { path := [A.name, C.name, B.name], guaranteed := true,
              commission := c1 + c2, bestSplit := min s1 s2 } := by
  intro l
  induction l with
  | nil =>
    intro hs h c hc
    simp [hopCandidates] at h
    subst h
    simp at hc
  | cons kc rest ih =>
    intro hs h c hc
    obtain ⟨name, C⟩ := kc
    rcases hopCandidates_cons_inv p A B name C rest hs h with
      ⟨hn1, hn2, ha1, ha2, c1, s1, c2, s2, more, h1, h2, hmore, rfl⟩ | ⟨_, hrest⟩
    · rcases List.mem_cons.mp hc with rfl | hc
      · exact ⟨name, C, c1, s1, c2, s2, List.mem_cons_self _ _, hn1, hn2, ha1, ha2, h1, h2, rfl⟩
      · obtain ⟨k, C0, d1, t1, d2, t2, hmem, hrest⟩ := ih more hmore c hc
        exact ⟨k, C0, d1, t1, d2, t2, List.mem_cons_of_mem _ hmem, hrest⟩
    · obtain ⟨k, C0, d1, t1, d2, t2, hmem, hrest⟩ := ih hs hrest c hc
      exact ⟨k, C0, d1, t1, d2, t2, List.mem_cons_of_mem _ hmem, hrest⟩

/-- A successful candidate generation has resolved source and destination. -/
theorem candidates_resolved (p : TransferProblem) (cs : List RouteOption)
    (h : candidates p = .ok cs) :
    ∃ A B, bankAt p.banks p.sourceBank = .ok A ∧ bankAt p.banks p.destinationBank = .ok B := by
  cases hA : bankAt p.banks p.sourceBank with
  | error e => simp [candidates, hA, bind, Except.bind] at h
  | ok A =>
    cases hB : bankAt p.banks p.destinationBank with
    | error e => simp [candidates, hA, hB, bind, Except.bind] at h
    | ok B => exact ⟨A, B, rfl, rfl⟩

/-- A returned route comes from a generated candidate vector. -/
theorem findBestRouteWithSplits_inv (p : TransferProblem) (r : RouteOption)
    (h : findBestRouteWithSplits p = .ok r) :
    ∃ cs, candidates p = .ok cs ∧
      ((cs = [] ∧ r = { path := [], guaranteed := false, commission := DBL_MAX }) ∨
       (∃ c0 rest, cs = c0 :: rest ∧ r = minElementLoop c0 rest)) := by
  cases hc : candidates p with
  | error e => simp [findBestRouteWithSplits, hc, bind, Except.bind] at h
  | ok cs =>
    rw [findBestRouteWithSplits_of_candidates p cs hc] at h
    refine ⟨cs, rfl, ?_⟩
    cases cs with
    | nil =>
      simp only [minElement, Except.ok.injEq] at h
      exact Or.inl ⟨rfl, h.symm⟩
    | cons c0 rest =>
      simp only [minElement, Except.ok.injEq] at h
      exact Or.inr ⟨c0, rest, rfl, h.symm⟩

/-- The three shapes of a returned route: the no-route value, the direct candidate, or
the candidate through a map entry `(k, C)`. -/
theorem findBestRouteWithSplits_cases (p : TransferProblem) (r : RouteOption)
    (h : findBestRouteWithSplits p = .ok r) :
    ∃ A B, bankAt p.banks p.sourceBank = .ok A ∧ bankAt p.banks p.destinationBank = .ok B ∧
      ((candidates p = .ok [] ∧
          r = { path := [], guaranteed := false, commission := DBL_MAX, bestSplit := 1 }) ∨
       (A.hasCommonCorrespondent B = true ∧ ∃ c s,
          findMinCostWithSplits p p.sourceBank p.destinationBank p.amount = .ok (c, s) ∧
          r = { path := [p.sourceBank, p.destinationBank], guaranteed := true,
                commission := c, bestSplit := s }) ∨
       (∃ k C c1 s1 c2 s2, (k, C) ∈ p.banks ∧ k ≠ A.name ∧ k ≠ B.name ∧
          A.hasCommonCorrespondent C = true ∧ C.hasCommonCorrespondent B = true ∧
          findMinCostWithSplits p A.name C.name p.amount = .ok (c1, s1) ∧
          findMinCostWithSplits p C.name B.name p.amount = .ok (c2, s2) ∧
          r = { path := [A.name, C.name, B.name], guaranteed := true,
                commission := c1 + c2, bestSplit := min s1 s2 })) := by
  obtain ⟨cs, hc, hcase⟩ := findBestRouteWithSplits_inv p r h
  obtain ⟨A, B, hA, hB⟩ := candidates_resolved p cs hc
  refine ⟨A, B, hA, hB, ?_⟩
  rcases hcase with ⟨hnil, hr⟩ | ⟨c0, rest, hcs, hr⟩
  · left
    rw [hnil] at hc
    exact ⟨hc, hr⟩
  · right
    obtain ⟨ds, hs, hd, hh, hsplit⟩ := candidates_inv p A B cs hA hB hc
    have hmem : r ∈ ds ++ hs := by
      rw [← hsplit, hcs, hr]
      exact minElementLoop_mem rest c0
    rcases List.mem_append.mp hmem with hin | hin
    · left
      rcases directCandidate_inv p A B ds hd with ⟨hadj, c, s, hmin, hds⟩ | ⟨_, hds⟩
      · rw [hds] at hin
        exact ⟨hadj, c, s, hmin, List.mem_singleton.mp hin⟩
      · rw [hds] at hin
        simp at hin
    · right
      exact hopCandidates_shape p A B p.banks hs hh r hin

/-! ## Split counts -/

/-- The split count carried out of the outer loop is the incoming one or one of the
split counts scanned. -/
theorem splitLoop_split_range (p : TransferProblem) (fromBank toBank : String)
    (totalAmount : ℚ) :
    ∀ (remaining parts : Nat) (bestCost : ℚ) (bestSplit : Nat) (c : ℚ) (s : Nat),
      splitLoop p fromBank toBank totalAmount remaining parts (bestCost, bestSplit) =
        .ok (c, s) →
      s = bestSplit ∨ (parts ≤ s ∧ s < parts + remaining) := by
  intro remaining
  induction remaining with
  | zero =>
    intro parts bestCost bestSplit c s h
    simp only [splitLoop, Except.ok.injEq, Prod.mk.injEq] at h
    exact Or.inl h.2.symm
  | succ n ih =>
    intro parts bestCost bestSplit c s h
    cases hpl : partsLoop p fromBank toBank (totalAmount / (parts : ℚ)) parts 0 with
    | error e => simp [splitLoop, hpl, bind, Except.bind] at h
    | ok tc =>
      by_cases hlt : tc < bestCost
      · simp only [splitLoop, hpl, bind, Except.bind, hlt, if_true] at h
        rcases ih (parts + 1) tc parts c s h with hs | ⟨h1, h2⟩
        · exact Or.inr ⟨by omega, by omega⟩
        · exact Or.inr ⟨by omega, by omega⟩
      · simp only [splitLoop, hpl, bind, Except.bind, hlt, if_false] at h
        rcases ih (parts + 1) bestCost bestSplit c s h with hs | ⟨h1, h2⟩
        · exact Or.inl hs
        · exact Or.inr ⟨by omega, by omega⟩

/-- Whenever `findMinCostWithSplits` returns, its split count lies in 1..10. -/
theorem findMinCostWithSplits_split_range (p : TransferProblem) (fromBank toBank : String)
    (totalAmount c : ℚ) (s : Nat)
    (h : findMinCostWithSplits p fromBank toBank totalAmount = .ok (c, s)) :
    1 ≤ s ∧ s ≤ 10 := by
  rcases splitLoop_split_range p fromBank toBank totalAmount 10 1 DBL_MAX 1 c s h with
    hs | ⟨h1, h2⟩
  · omega
  · omega

/-! ## The returned route -/

/-- The hub request is served through `C`. -/
theorem exHub_result :
    findBestRouteWithSplits exHub =
      .ok { path := ["A", "C", "B"], guaranteed := true, commission := 17 + 26,
            bestSplit := 1 } := by
  rw [findBestRouteWithSplits_of_candidates exHub _ exHub_candidates]
  have h : ((17 : ℚ) + 26 < 83) := by norm_num
  simp only [minElement, minElementLoop, h, if_true]

/-- C13: whenever `findBestRouteWithSplits` returns a three-entry path `[x, y, z]`, `x` and
`z` are the names of the resolved source and destination, both legs were priced by
`findMinCostWithSplits` on the full amount, the commission is the sum of the two leg
costs and `bestSplit` the smaller of the two split counts. -/
theorem findBestRouteWithSplits_three_entry (p : TransferProblem) (r : RouteOption)
    (x y z : String) (hr : findBestRouteWithSplits p = .ok r) (hpath : r.path = [x, y, z]) :
    ∃ A B c1 s1 c2 s2, bankAt p.banks p.sourceBank = .ok A ∧
      bankAt p.banks p.destinationBank = .ok B ∧ x = A.name ∧ z = B.name ∧
      findMinCostWithSplits p x y p.amount = .ok (c1, s1) ∧
      findMinCostWithSplits p y z p.amount = .ok (c2, s2) ∧
      r.commission = c1 + c2 ∧ r.bestSplit = min s1 s2 := by
  obtain ⟨A, B, hA, hB, hcase⟩ := findBestRouteWithSplits_cases p r hr
  rcases hcase with ⟨_, rfl⟩ | ⟨_, c, s, _, rfl⟩ |
    ⟨k, C, c1, s1, c2, s2, _, _, _, _, _, h1, h2, rfl⟩
  · simp at hpath
  · simp at hpath
  · simp only [List.cons.injEq, and_true] at hpath
    obtain ⟨rfl, rfl, rfl⟩ := hpath
    exact ⟨A, B, c1, s1, c2, s2, hA, hB, rfl, rfl, h1, h2, rfl, rfl⟩

/-- C13 at the hub request, whose result is the path `[A, C, B]`. -/
theorem findBestRouteWithSplits_three_entry_witness :
    ∃ A B c1 s1 c2 s2, bankAt exHub.banks exHub.sourceBank = .ok A ∧
      bankAt exHub.banks exHub.destinationBank = .ok B ∧ "A" = A.name ∧ "B" = B.name ∧
      findMinCostWithSplits exHub "A" "C" exHub.amount = .ok (c1, s1) ∧
      findMinCostWithSplits exHub "C" "B" exHub.amount = .ok (c2, s2) ∧
      (17 : ℚ) + 26 = c1 + c2 ∧ 1 = min s1 s2 :=
  findBestRouteWithSplits_three_entry exHub _ "A" "C" "B" exHub_result rfl

/-- C18: the `bestSplit` of every returned `RouteOption` lies in 1..10, and it is 1 on the
infeasible result. -/
theorem findBestRouteWithSplits_bestSplit_range (p : TransferProblem) (r : RouteOption)
    (hr : findBestRouteWithSplits p = .ok r) :
    1 ≤ r.bestSplit ∧ r.bestSplit ≤ 10 ∧ (r.guaranteed = false → r.bestSplit = 1) := by
  obtain ⟨A, B, _, _, hcase⟩ := findBestRouteWithSplits_cases p r hr
  rcases hcase with ⟨_, rfl⟩ | ⟨_, c, s, hmin, rfl⟩ |
    ⟨k, C, c1, s1, c2, s2, _, _, _, _, _, h1, h2, rfl⟩
  · simp
  · have := findMinCostWithSplits_split_range p _ _ _ c s hmin
    simp only [Bool.true_eq_false, false_implies, and_true]
    exact this
  · have hr1 := findMinCostWithSplits_split_range p _ _ _ c1 s1 h1
    have hr2 := findMinCostWithSplits_split_range p _ _ _ c2 s2 h2
    simp only [Bool.true_eq_false, false_implies, and_true]
    exact ⟨le_min hr1.1 hr2.1, le_trans (min_le_left _ _) hr1.2⟩

/-- The request of `exIsolated` has no candidate. -/
theorem exIsolated_result :
    candidates exIsolated = .ok [] ∧
    findBestRouteWithSplits exIsolated =
      .ok { path := [], guaranteed := false, commission := DBL_MAX, bestSplit := 1 } := by
  have hA : bankAt exIsolated.banks exIsolated.sourceBank = .ok exA := by
    simp [bankAt, exIsolated]
  have hB : bankAt exIsolated.banks exIsolated.destinationBank = .ok exD := by
    simp [bankAt, exIsolated]
  have hd : exA.hasCommonCorrespondent exD = false := by decide
  have hh : hopCandidates exIsolated exA exD exIsolated.banks = .ok [] := by
    apply hopCandidates_nil
    intro kc hkc h1 h2
    have hcases : kc = ("A", exA) ∨ kc = ("C", exC) ∨ kc = ("D", exD) := by
      simpa [exIsolated] using hkc
    rcases hcases with rfl | rfl | rfl
    · exact absurd rfl h1
    · have : exC.hasCommonCorrespondent exD = false := by decide
      simp [this]
    · exact absurd rfl h2
  have hc : candidates exIsolated = .ok [] := by
    simp [candidates, hA, hB, directCandidate, hd, hh, bind, Except.bind, pure, Except.pure]
  exact ⟨hc, findBestRouteWithSplits_of_candidates exIsolated [] hc⟩

/-- In a map every stored pair is what `at` returns for its key. -/
theorem bankAt_eq_of_mem (banks : List (String × Bank)) (hord : MapOrdered banks)
    (k : String) (b : Bank) (h : (k, b) ∈ banks) : bankAt banks k = .ok b := by
  induction banks with
  | nil => simp at h
  | cons kb rest ih =>
    obtain ⟨k0, b0⟩ := kb
    have hp := List.pairwise_cons.mp hord
    rcases List.mem_cons.mp h with heq | hmem
    · have h1 : k = k0 := (Prod.mk.inj heq).1
      have h2 : b = b0 := (Prod.mk.inj heq).2
      simp [bankAt, h1, h2]
    · have hlt : k0 < k := hp.1 (k, b) hmem
      have hne : k0 ≠ k := ne_of_lt hlt
      simpa [bankAt, hne] using ih hp.2 hmem

/-- C17: on a map whose banks are stored under their own names, a feasible result has the
path `[source, destination]` with the two banks sharing a correspondent, or a path
`[source, c, destination]` whose middle bank `c` differs from both ends and shares a
correspondent with each. -/
theorem findBestRouteWithSplits_path_shape (p : TransferProblem) (r : RouteOption)
    (hord : MapOrdered p.banks) (hown : ∀ kb ∈ p.banks, kb.2.name = kb.1)
    (hr : findBestRouteWithSplits p = .ok r) (hfeas : r.guaranteed = true) :
    ∃ A B, bankAt p.banks p.sourceBank = .ok A ∧ bankAt p.banks p.destinationBank = .ok B ∧
      ((r.path = [p.sourceBank, p.destinationBank] ∧ A.hasCommonCorrespondent B = true) ∨
       (∃ c C, r.path = [p.sourceBank, c, p.destinationBank] ∧ bankAt p.banks c = .ok C ∧
          c ≠ p.sourceBank ∧ c ≠ p.destinationBank ∧
          A.hasCommonCorrespondent C = true ∧ C.hasCommonCorrespondent B = true)) := by
  obtain ⟨A, B, hA, hB, hcase⟩ := findBestRouteWithSplits_cases p r hr
  have hAn : A.name = p.sourceBank := hown _ (bankAt_mem _ _ _ hA)
  have hBn : B.name = p.destinationBank := hown _ (bankAt_mem _ _ _ hB)
  refine ⟨A, B, hA, hB, ?_⟩
  rcases hcase with ⟨_, rfl⟩ | ⟨hadj, c, s, _, rfl⟩ |
    ⟨k, C, c1, s1, c2, s2, hmem, hn1, hn2, ha1, ha2, _, _, rfl⟩
  · simp at hfeas
  · exact Or.inl ⟨rfl, hadj⟩
  · have hCn : C.name = k := hown _ hmem
    refine Or.inr ⟨k, C, ?_, bankAt_eq_of_mem _ hord k C hmem, ?_, ?_, ha1, ha2⟩
    · simp only [hAn, hBn, hCn]
    · rw [← hAn]; exact hn1
    · rw [← hBn]; exact hn2

theorem exHub_ordered : MapOrdered exHub.banks := by
  simp [MapOrdered, exHub]
  decide

/-! ## Ties -/

/-- The scan of `std::min_element` keeps `best` when no later element is strictly
cheaper. -/
theorem minElementLoop_keep (l : List RouteOption) (best : RouteOption)
    (h : ∀ c ∈ l, best.commission ≤ c.commission) : minElementLoop best l = best := by
  induction l with
  | nil => simp [minElementLoop]
  | cons d rest ih =>
    have hd : ¬ d.commission < best.commission := not_lt.mpr (h d (List.mem_cons_self _ _))
    simp only [minElementLoop, hd, if_false]
    exact ih (fun c hc => h c (List.mem_cons_of_mem _ hc))

/-- The scan of `std::min_element` ends on the first minimum: everything before it in
the range is strictly dearer, everything after it at least as dear. -/
theorem minElementLoop_first (l : List RouteOption) :
    ∀ (pre0 : List RouteOption) (best : RouteOption) (mid : List RouteOption),
      (∀ c ∈ pre0, best.commission < c.commission) →
      (∀ c ∈ mid, best.commission ≤ c.commission) →
      ∃ pre post, pre0 ++ best :: (mid ++ l) = pre ++ minElementLoop best l :: post ∧
        (∀ c ∈ pre, (minElementLoop best l).commission < c.commission) ∧
        (∀ c ∈ post, (minElementLoop best l).commission ≤ c.commission) := by
  induction l with
  | nil =>
    intro pre0 best mid hpre hmid
    exact ⟨pre0, mid, by simp [minElementLoop], by simpa [minElementLoop] using hpre,
      by simpa [minElementLoop] using hmid⟩
  | cons d rest ih =>
    intro pre0 best mid hpre hmid
    by_cases hlt : d.commission < best.commission
    · obtain ⟨pre, post, heq, h1, h2⟩ := ih (pre0 ++ best :: mid) d []
        (by
          intro c hc
          rcases List.mem_append.mp hc with hc | hc
          · exact lt_trans hlt (hpre c hc)
          · rcases List.mem_cons.mp hc with rfl | hc
            · exact hlt
            · exact lt_of_lt_of_le hlt (hmid c hc))
        (by intro c hc; simp at hc)
      refine ⟨pre, post, ?_, ?_, ?_⟩
      · simp only [minElementLoop, hlt, if_true]
        rw [← heq]
        simp
      · simpa only [minElementLoop, hlt, if_true] using h1
      · simpa only [minElementLoop, hlt, if_true] using h2
    · obtain ⟨pre, post, heq, h1, h2⟩ := ih pre0 best (mid ++ [d]) hpre
        (by
          intro c hc
          rcases List.mem_append.mp hc with hc | hc
          · exact hmid c hc
          · rw [List.mem_singleton.mp hc]
            exact not_lt.mp hlt)
      refine ⟨pre, post, ?_, ?_, ?_⟩
      · simp only [minElementLoop, hlt, if_false]
        rw [← heq]
        simp
      · simpa only [minElementLoop, hlt, if_false] using h1
      · simpa only [minElementLoop, hlt, if_false] using h2

/-- Position of a one-hop candidate: the candidate at a given place of the vector comes
from a map entry `(k, C)`, and every eligible entry before `(k, C)` in the map has
its candidate before that place. -/
theorem hopCandidates_position (p : TransferProblem) (A B : Bank) :
    ∀ (l : List (String × Bank)) (pre : List RouteOption) (r : RouteOption)
      (post : List RouteOption),
      hopCandidates p A B l = .ok (pre ++ r :: post) →
      ∃ l1 k C l2, l = l1 ++ (k, C) :: l2 ∧ k ≠ A.name ∧ k ≠ B.name ∧
        A.hasCommonCorrespondent C = true ∧ C.hasCommonCorrespondent B = true ∧
        r.path = [A.name, C.name, B.name] ∧
        (∀ kc ∈ l1, kc.1 ≠ A.name → kc.1 ≠ B.name →
          A.hasCommonCorrespondent kc.2 = true → kc.2.hasCommonCorrespondent B = true →
          ∃ c1 s1 c2 s2,
            findMinCostWithSplits p A.name kc.2.name p.amount = .ok (c1, s1) ∧
            findMinCostWithSplits p kc.2.name B.name p.amount = .ok (c2, s2) ∧
            ({ path := [A.name, kc.2.name, B.name], guaranteed := true,
               commission := c1 + c2, bestSplit := min s1 s2 } : RouteOption) ∈ pre) := by
  intro l
  induction l with
  | nil =>
    intro pre r post h
    simp [hopCandidates] at h
  | cons kc rest ih =>
    intro pre r post h
    obtain ⟨name, C⟩ := kc
    rcases hopCandidates_cons_inv p A B name C rest _ h with
      ⟨hn1, hn2, ha1, ha2, c1, s1, c2, s2, more, h1, h2, hmore, heq⟩ | ⟨hno, hrest⟩
    · cases pre with
      | nil =>
        simp only [List.nil_append, List.cons.injEq] at heq
        refine ⟨[], name, C, rest, rfl, hn1, hn2, ha1, ha2, ?_, ?_⟩
        · rw [heq.1]
        · intro kc hkc
          simp at hkc
      | cons x pre1 =>
        simp only [List.cons_append, List.cons.injEq] at heq
        rw [← heq.2] at hmore
        obtain ⟨l1, k, C0, l2, hl, hk1, hk2, hb1, hb2, hpath, hbefore⟩ :=
          ih pre1 r post hmore
        refine ⟨(name, C) :: l1, k, C0, l2, by rw [hl]; rfl, hk1, hk2, hb1, hb2, hpath, ?_⟩
        intro kc hkc e1 e2 e3 e4
        rcases List.mem_cons.mp hkc with rfl | hkc
        · exact ⟨c1, s1, c2, s2, h1, h2, by rw [heq.1]; exact List.mem_cons_self _ _⟩
        · obtain ⟨d1, t1, d2, t2, g1, g2, gmem⟩ := hbefore kc hkc e1 e2 e3 e4
          exact ⟨d1, t1, d2, t2, g1, g2, List.mem_cons_of_mem _ gmem⟩
    · obtain ⟨l1, k, C0, l2, hl, hk1, hk2, hb1, hb2, hpath, hbefore⟩ :=
        ih pre r post hrest
      refine ⟨(name, C) :: l1, k, C0, l2, by rw [hl]; rfl, hk1, hk2, hb1, hb2, hpath, ?_⟩
      intro kc hkc e1 e2 e3 e4
      rcases List.mem_cons.mp hkc with rfl | hkc
      · exact absurd ⟨e1, e2, e3, e4⟩ hno
      · exact hbefore kc hkc e1 e2 e3 e4

/-! ## Tie examples, evaluated -/

theorem exTie_split_A_B : findMinCostWithSplits exTie "A" "B" 1000 = .ok (83, 1) := by
  have h := findMinCostWithSplits_single_tier exTie "A" "B" 1000 hubA hubB
    ⟨1000, 2, 1 / 100⟩ ⟨1000, 1, 2 / 100⟩
    (by simp [bankAt, exTie, exHub]) (by simp [bankAt, exTie, exHub]) rfl rfl
    (by simp [hubA, hubB, hubC, hubD, exA, exB, exC, exTie, exHub,
          TransferProblem.getBorderFee, getBorderFeeLoop]
        try norm_num)
    (by simp [hubA, hubB, hubC, hubD, exA, exB, exC, exTie, exHub,
          TransferProblem.getBorderFee, getBorderFeeLoop]
        norm_num [DBL_MAX])
  rw [h]
  simp [hubA, hubB, hubC, hubD, exA, exB, exC, exTie, exHub,
    TransferProblem.getBorderFee, getBorderFeeLoop]
  try norm_num

theorem exTie_split_A_C : findMinCostWithSplits exTie "A" "C" 1000 = .ok (17, 1) := by
  have h := findMinCostWithSplits_single_tier exTie "A" "C" 1000 hubA hubC
    ⟨1000, 2, 1 / 100⟩ ⟨1000, 0, 5 / 1000⟩
    (by simp [bankAt, exTie, exHub]) (by simp [bankAt, exTie, exHub]) rfl rfl
    (by simp [hubA, hubB, hubC, hubD, exA, exB, exC, exTie, exHub,
          TransferProblem.getBorderFee, getBorderFeeLoop]
        try norm_num)
    (by simp [hubA, hubB, hubC, hubD, exA, exB, exC, exTie, exHub,
          TransferProblem.getBorderFee, getBorderFeeLoop]
        norm_num [DBL_MAX])
  rw [h]
  simp [hubA, hubB, hubC, hubD, exA, exB, exC, exTie, exHub,
    TransferProblem.getBorderFee, getBorderFeeLoop]
  try norm_num

theorem exTie_split_C_B : findMinCostWithSplits exTie "C" "B" 1000 = .ok (26, 1) := by
  have h := findMinCostWithSplits_single_tier exTie "C" "B" 1000 hubC hubB
    ⟨1000, 0, 5 / 1000⟩ ⟨1000, 1, 2 / 100⟩
    (by simp [bankAt, exTie, exHub]) (by simp [bankAt, exTie, exHub]) rfl rfl
    (by simp [hubA, hubB, hubC, hubD, exA, exB, exC, exTie, exHub,
          TransferProblem.getBorderFee, getBorderFeeLoop]
        try norm_num)
    (by simp [hubA, hubB, hubC, hubD, exA, exB, exC, exTie, exHub,
          TransferProblem.getBorderFee, getBorderFeeLoop]
        norm_num [DBL_MAX])
  rw [h]
  simp [hubA, hubB, hubC, hubD, exA, exB, exC, exTie, exHub,
    TransferProblem.getBorderFee, getBorderFeeLoop]
  try norm_num

theorem exTie_split_A_D : findMinCostWithSplits exTie "A" "D" 1000 = .ok (17, 1) := by
  have h := findMinCostWithSplits_single_tier exTie "A" "D" 1000 hubA hubD
    ⟨1000, 2, 1 / 100⟩ ⟨1000, 0, 5 / 1000⟩
    (by simp [bankAt, exTie, exHub]) (by simp [bankAt, exTie, exHub]) rfl rfl
    (by simp [hubA, hubB, hubC, hubD, exA, exB, exC, exTie, exHub,
          TransferProblem.getBorderFee, getBorderFeeLoop]
        try norm_num)
    (by simp [hubA, hubB, hubC, hubD, exA, exB, exC, exTie, exHub,
          TransferProblem.getBorderFee, getBorderFeeLoop]
        norm_num [DBL_MAX])
  rw [h]
  simp [hubA, hubB, hubC, hubD, exA, exB, exC, exTie, exHub,
    TransferProblem.getBorderFee, getBorderFeeLoop]
  try norm_num

theorem exTie_split_D_B : findMinCostWithSplits exTie "D" "B" 1000 = .ok (26, 1) := by
  have h := findMinCostWithSplits_single_tier exTie "D" "B" 1000 hubD hubB
    ⟨1000, 0, 5 / 1000⟩ ⟨1000, 1, 2 / 100⟩
    (by simp [bankAt, exTie, exHub]) (by simp [bankAt, exTie, exHub]) rfl rfl
    (by simp [hubA, hubB, hubC, hubD, exA, exB, exC, exTie, exHub,
          TransferProblem.getBorderFee, getBorderFeeLoop]
        try norm_num)
    (by simp [hubA, hubB, hubC, hubD, exA, exB, exC, exTie, exHub,
          TransferProblem.getBorderFee, getBorderFeeLoop]
        norm_num [DBL_MAX])
  rw [h]
  simp [hubA, hubB, hubC, hubD, exA, exB, exC, exTie, exHub,
    TransferProblem.getBorderFee, getBorderFeeLoop]
  try norm_num

theorem exTieDirect_split_A_B : findMinCostWithSplits exTieDirect "A" "B" 1000 = .ok (43, 1) := by
  have h := findMinCostWithSplits_single_tier exTieDirect "A" "B" 1000 hubA hubB
    ⟨1000, 2, 1 / 100⟩ ⟨1000, 1, 2 / 100⟩
    (by simp [bankAt, exTieDirect, exHub]) (by simp [bankAt, exTieDirect, exHub]) rfl rfl
    (by simp [hubA, hubB, hubC, hubD, exA, exB, exC, exTieDirect, exHub,
          TransferProblem.getBorderFee, getBorderFeeLoop]
        try norm_num)
    (by simp [hubA, hubB, hubC, hubD, exA, exB, exC, exTieDirect, exHub,
          TransferProblem.getBorderFee, getBorderFeeLoop]
        norm_num [DBL_MAX])
  rw [h]
  simp [hubA, hubB, hubC, hubD, exA, exB, exC, exTieDirect, exHub,
    TransferProblem.getBorderFee, getBorderFeeLoop]
  try norm_num

theorem exTieDirect_split_A_C : findMinCostWithSplits exTieDirect "A" "C" 1000 = .ok (17, 1) := by
  have h := findMinCostWithSplits_single_tier exTieDirect "A" "C" 1000 hubA hubC
    ⟨1000, 2, 1 / 100⟩ ⟨1000, 0, 5 / 1000⟩
    (by simp [bankAt, exTieDirect, exHub]) (by simp [bankAt, exTieDirect, exHub]) rfl rfl
    (by simp [hubA, hubB, hubC, hubD, exA, exB, exC, exTieDirect, exHub,
          TransferProblem.getBorderFee, getBorderFeeLoop]
        try norm_num)
    (by simp [hubA, hubB, hubC, hubD, exA, exB, exC, exTieDirect, exHub,
          TransferProblem.getBorderFee, getBorderFeeLoop]
        norm_num [DBL_MAX])
  rw [h]
  simp [hubA, hubB, hubC, hubD, exA, exB, exC, exTieDirect, exHub,
    TransferProblem.getBorderFee, getBorderFeeLoop]
  try norm_num

theorem exTieDirect_split_C_B : findMinCostWithSplits exTieDirect "C" "B" 1000 = .ok (26, 1) := by
  have h := findMinCostWithSplits_single_tier exTieDirect "C" "B" 1000 hubC hubB
    ⟨1000, 0, 5 / 1000⟩ ⟨1000, 1, 2 / 100⟩
    (by simp [bankAt, exTieDirect, exHub]) (by simp [bankAt, exTieDirect, exHub]) rfl rfl
    (by simp [hubA, hubB, hubC, hubD, exA, exB, exC, exTieDirect, exHub,
          TransferProblem.getBorderFee, getBorderFeeLoop]
        try norm_num)
    (by simp [hubA, hubB, hubC, hubD, exA, exB, exC, exTieDirect, exHub,
          TransferProblem.getBorderFee, getBorderFeeLoop]
        norm_num [DBL_MAX])
  rw [h]
  simp [hubA, hubB, hubC, hubD, exA, exB, exC, exTieDirect, exHub,
    TransferProblem.getBorderFee, getBorderFeeLoop]
  try norm_num

theorem exTie_source : bankAt exTie.banks exTie.sourceBank = .ok hubA := by
  simp [bankAt, exTie]

theorem exTie_destination : bankAt exTie.banks exTie.destinationBank = .ok hubB := by
  simp [bankAt, exTie]

theorem exTie_ordered : MapOrdered exTie.banks := by
  simp [MapOrdered, exTie]
  decide

/-- The candidate vector of `exTie`: direct at 83, then through `C` and through `D`, both
at `17 + 26`. -/
theorem exTie_candidates :
    candidates exTie =
      .ok [{ path := ["A", "B"], guaranteed := true, commission := 83, bestSplit := 1 },
           { path := ["A", "C", "B"], guaranteed := true, commission := 17 + 26,
             bestSplit := 1 },
           { path := ["A", "D", "B"], guaranteed := true, commission := 17 + 26,
             bestSplit := 1 }] := by
  have hAB : hubA.hasCommonCorrespondent hubB = true := by decide
  have hAC : hubA.hasCommonCorrespondent hubC = true := by decide
  have hCB : hubC.hasCommonCorrespondent hubB = true := by decide
  have hAD : hubA.hasCommonCorrespondent hubD = true := by decide
  have hDB : hubD.hasCommonCorrespondent hubB = true := by decide
  have hd : directCandidate exTie hubA hubB =
      .ok [{ path := ["A", "B"], guaranteed := true, commission := 83, bestSplit := 1 }] := by
    have h : findMinCostWithSplits exTie exTie.sourceBank exTie.destinationBank
        exTie.amount = .ok (83, 1) := exTie_split_A_B
    simp only [directCandidate, hAB, if_true, h, bind, Except.bind, pure, Except.pure]
    rfl
  have h1 : findMinCostWithSplits exTie hubA.name hubC.name exTie.amount = .ok (17, 1) :=
    exTie_split_A_C
  have h2 : findMinCostWithSplits exTie hubC.name hubB.name exTie.amount = .ok (26, 1) :=
    exTie_split_C_B
  have h3 : findMinCostWithSplits exTie hubA.name hubD.name exTie.amount = .ok (17, 1) :=
    exTie_split_A_D
  have h4 : findMinCostWithSplits exTie hubD.name hubB.name exTie.amount = .ok (26, 1) :=
    exTie_split_D_B
  have hnA : ¬ ("A" ≠ hubA.name ∧ "A" ≠ hubB.name) := by decide
  have hnB : ¬ ("B" ≠ hubA.name ∧ "B" ≠ hubB.name) := by decide
  have hnC : "C" ≠ hubA.name ∧ "C" ≠ hubB.name := by decide
  have hnD : "D" ≠ hubA.name ∧ "D" ≠ hubB.name := by decide
  have hh : hopCandidates exTie hubA hubB exTie.banks =
      .ok [{ path := ["A", "C", "B"], guaranteed := true, commission := 17 + 26,
             bestSplit := 1 },
           { path := ["A", "D", "B"], guaranteed := true, commission := 17 + 26,
             bestSplit := 1 }] := by
    have hb : exTie.banks = [("A", hubA), ("B", hubB), ("C", hubC), ("D", hubD)] := rfl
    rw [hb, hopCandidates, if_neg hnA, hopCandidates, if_neg hnB, hopCandidates, if_pos hnC,
      hopCandidates, if_pos hnD]
    simp only [hAC, hCB, hAD, hDB, Bool.and_self, if_true, h1, h2, h3, h4, hopCandidates,
      bind, Except.bind, pure, Except.pure]
    rfl
  simp only [candidates, exTie_source, exTie_destination, hd, hh, bind, Except.bind,
    pure, Except.pure]
  rfl

/-- The request of `exTie` is served through `C`, the first of the two tied
intermediaries. -/
theorem exTie_result :
    findBestRouteWithSplits exTie =
      .ok { path := ["A", "C", "B"], guaranteed := true, commission := 17 + 26,
            bestSplit := 1 } := by
  rw [findBestRouteWithSplits_of_candidates exTie _ exTie_candidates]
  have h1 : ((17 : ℚ) + 26 < 83) := by norm_num
  have h2 : ¬ ((17 : ℚ) + 26 < 17 + 26) := by norm_num
  simp only [minElement, minElementLoop, h1, h2, if_true, if_false]

theorem exTieDirect_source :
    bankAt exTieDirect.banks exTieDirect.sourceBank = .ok hubA := by
  simp [bankAt, exTieDirect, exHub]

theorem exTieDirect_destination :
    bankAt exTieDirect.banks exTieDirect.destinationBank = .ok hubB := by
  simp [bankAt, exTieDirect, exHub]

theorem exTieDirect_ordered : MapOrdered exTieDirect.banks := by
  simp [MapOrdered, exTieDirect, exHub]
  decide

/-- The candidate vector of `exTieDirect`: direct at 43, then through `C` at `17 + 26`. -/
theorem exTieDirect_candidates :
    candidates exTieDirect =
      .ok [{ path := ["A", "B"], guaranteed := true, commission := 43, bestSplit := 1 },
           { path := ["A", "C", "B"], guaranteed := true, commission := 17 + 26,
             bestSplit := 1 }] := by
  have hAB : hubA.hasCommonCorrespondent hubB = true := by decide
  have hAC : hubA.hasCommonCorrespondent hubC = true := by decide
  have hCB : hubC.hasCommonCorrespondent hubB = true := by decide
  have hd : directCandidate exTieDirect hubA hubB =
      .ok [{ path := ["A", "B"], guaranteed := true, commission := 43, bestSplit := 1 }] := by
    have h : findMinCostWithSplits exTieDirect exTieDirect.sourceBank
        exTieDirect.destinationBank exTieDirect.amount = .ok (43, 1) := exTieDirect_split_A_B
    simp only [directCandidate, hAB, if_true, h, bind, Except.bind, pure, Except.pure]
    rfl
  have h1 : findMinCostWithSplits exTieDirect hubA.name hubC.name exTieDirect.amount =
      .ok (17, 1) := exTieDirect_split_A_C
  have h2 : findMinCostWithSplits exTieDirect hubC.name hubB.name exTieDirect.amount =
      .ok (26, 1) := exTieDirect_split_C_B
  have hnA : ¬ ("A" ≠ hubA.name ∧ "A" ≠ hubB.name) := by decide
  have hnB : ¬ ("B" ≠ hubA.name ∧ "B" ≠ hubB.name) := by decide
  have hnC : "C" ≠ hubA.name ∧ "C" ≠ hubB.name := by decide
  have hh : hopCandidates exTieDirect hubA hubB exTieDirect.banks =
      .ok [{ path := ["A", "C", "B"], guaranteed := true, commission := 17 + 26,
             bestSplit := 1 }] := by
    have hb : exTieDirect.banks = [("A", hubA), ("B", hubB), ("C", hubC)] := rfl
    rw [hb, hopCandidates, if_neg hnA, hopCandidates, if_neg hnB, hopCandidates, if_pos hnC]
    simp only [hAC, hCB, Bool.and_self, if_true, h1, h2, hopCandidates, bind, Except.bind,
      pure, Except.pure]
    rfl
  simp only [candidates, exTieDirect_source, exTieDirect_destination, hd, hh, bind,
    Except.bind, pure, Except.pure]
  rfl

/-- The request of `exTieDirect` is served directly, although the route through `C` costs
the same. -/
theorem exTieDirect_result :
    findBestRouteWithSplits exTieDirect =
      .ok { path := ["A", "B"], guaranteed := true, commission := 43, bestSplit := 1 } := by
  rw [findBestRouteWithSplits_of_candidates exTieDirect _ exTieDirect_candidates]
  have h2 : ¬ ((17 : ℚ) + 26 < 43) := by norm_num
  simp only [minElement, minElementLoop, h2, if_false]

/-- C16: ties go to the earlier candidate.  If the direct candidate exists and is as
cheap as the returned route, the returned route is the direct one, path
`[source, destination]`.  If the returned route has three entries, it goes through a
map entry `(k, C)` such that the direct candidate (if any) is strictly dearer and so
is the candidate of every eligible entry whose key is smaller than `k`: among
equally cheap intermediaries the first in ascending key order is returned. -/
theorem findBestRouteWithSplits_tie_break (p : TransferProblem) (A B : Bank)
    (r : RouteOption) (hord : MapOrdered p.banks)
    (hA : bankAt p.banks p.sourceBank = .ok A) (hB : bankAt p.banks p.destinationBank = .ok B)
    (hr : findBestRouteWithSplits p = .ok r) :
    (∀ c s, A.hasCommonCorrespondent B = true →
        findMinCostWithSplits p p.sourceBank p.destinationBank p.amount = .ok (c, s) →
        c ≤ r.commission →
        r = { path := [p.sourceBank, p.destinationBank], guaranteed := true,
              commission := c, bestSplit := s }) ∧
    (r.path.length = 3 → ∃ k C, (k, C) ∈ p.banks ∧ r.path = [A.name, C.name, B.name] ∧
        (A.hasCommonCorrespondent B = true → ∃ c s,
          findMinCostWithSplits p p.sourceBank p.destinationBank p.amount = .ok (c, s) ∧
          r.commission < c) ∧
        (∀ k2 C2, (k2, C2) ∈ p.banks → k2 < k → k2 ≠ A.name → k2 ≠ B.name →
          A.hasCommonCorrespondent C2 = true → C2.hasCommonCorrespondent B = true →
          ∃ c1 s1 c2 s2,
            findMinCostWithSplits p A.name C2.name p.amount = .ok (c1, s1) ∧
            findMinCostWithSplits p C2.name B.name p.amount = .ok (c2, s2) ∧
            r.commission < c1 + c2)) := by
  obtain ⟨cs, hc, hcase⟩ := findBestRouteWithSplits_inv p r hr
  obtain ⟨ds, hs, hd, hh, hsplit⟩ := candidates_inv p A B cs hA hB hc
  constructor
  · intro c1 s1 hadj hmin1 hle
    rcases directCandidate_inv p A B ds hd with ⟨_, c, s, hmin, hds⟩ | ⟨hno, _⟩
    · rw [hmin] at hmin1
      simp only [Except.ok.injEq, Prod.mk.injEq] at hmin1
      obtain ⟨rfl, rfl⟩ := hmin1
      rcases hcase with ⟨hnil, _⟩ | ⟨c0, rest, hcs, hrr⟩
      · rw [hsplit, hds] at hnil
        simp at hnil
      · rw [hsplit, hds] at hcs
        simp only [List.singleton_append, List.cons.injEq] at hcs
        obtain ⟨h0, hrest⟩ := hcs
        rw [hrr, ← h0]
        apply minElementLoop_keep
        intro c1 hc1
        have hmin1 := minElementLoop_le rest c0 c1 (List.mem_cons_of_mem _ hc1)
        rw [← hrr] at hmin1
        exact le_trans hle hmin1
    · rw [hadj] at hno
      cases hno
  · intro hlen
    rcases hcase with ⟨_, hdef⟩ | ⟨c0, rest, hcs, hrr⟩
    · rw [hdef] at hlen
      simp at hlen
    · obtain ⟨pre, post, heq, hstrict, _⟩ :=
        minElementLoop_first rest [] c0 [] (by intro c h; simp at h) (by intro c h; simp at h)
      simp only [List.nil_append] at heq
      rw [← hrr, ← hcs, hsplit] at heq
      rw [← hrr] at hstrict
      -- the one-hop part of the vector around the returned route
      have hhop : ∃ pre1, hs = pre1 ++ r :: post ∧ (∀ c ∈ pre1, c ∈ pre) ∧
          (A.hasCommonCorrespondent B = true → ∃ c s,
            findMinCostWithSplits p p.sourceBank p.destinationBank p.amount = .ok (c, s) ∧
            r.commission < c) := by
        rcases directCandidate_inv p A B ds hd with ⟨_, c, s, hmin, hds⟩ | ⟨hno, hds⟩
        · rw [hds] at heq
          cases pre with
          | nil =>
            simp only [List.singleton_append, List.nil_append, List.cons.injEq] at heq
            rw [← heq.1] at hlen
            simp at hlen
          | cons x pre1 =>
            simp only [List.singleton_append, List.cons_append, List.cons.injEq] at heq
            refine ⟨pre1, heq.2, fun c hc => List.mem_cons_of_mem _ hc, ?_⟩
            intro _
            refine ⟨c, s, hmin, ?_⟩
            have := hstrict x (List.mem_cons_self _ _)
            rw [← heq.1] at this
            exact this
        · rw [hds] at heq
          simp only [List.nil_append] at heq
          refine ⟨pre, heq, fun c hc => hc, ?_⟩
          intro hadj
          rw [hadj] at hno
          cases hno
      obtain ⟨pre1, hhs, hsub, hdirect⟩ := hhop
      rw [hhs] at hh
      obtain ⟨l1, k, C, l2, hl, _, _, _, _, hpath, hbefore⟩ :=
        hopCandidates_position p A B p.banks pre1 r post hh
      refine ⟨k, C, by rw [hl]; simp, hpath, hdirect, ?_⟩
      intro k2 C2 hmem hlt e1 e2 e3 e4
      have hord2 : List.Pairwise (fun x y : String × Bank => x.1 < y.1)
          (l1 ++ (k, C) :: l2) := by
        rw [← hl]; exact hord
      have hin : (k2, C2) ∈ l1 := by
        rw [hl] at hmem
        rcases List.mem_append.mp hmem with h1 | h1
        · exact h1
        · rcases List.mem_cons.mp h1 with h2 | h2
          · have : k2 = k := (Prod.mk.inj h2).1
            rw [this] at hlt
            exact absurd hlt (lt_irrefl _)
          · have hp := (List.pairwise_append.mp hord2).2.1
            have hkk : k < k2 := (List.pairwise_cons.mp hp).1 (k2, C2) h2
            exact absurd hlt (lt_asymm hkk)
      obtain ⟨c1, s1, c2, s2, g1, g2, gmem⟩ := hbefore (k2, C2) hin e1 e2 e3 e4
      exact ⟨c1, s1, c2, s2, g1, g2, hstrict _ (hsub _ gmem)⟩


/-- C16 at `exTieDirect` (direct route and route through `C` both cost 43: the direct one
is returned) and at `exTie` (routes through `C` and `D` both cost 43: `C` is
returned). -/
theorem findBestRouteWithSplits_tie_break_witness :
    (({ path := ["A", "B"], guaranteed := true, commission := 43, bestSplit := 1 } :
        RouteOption) =
      { path := [exTieDirect.sourceBank, exTieDirect.destinationBank], guaranteed := true,
        commission := 43, bestSplit := 1 }) ∧
    (∃ k C, (k, C) ∈ exTie.banks ∧
        ({ path := ["A", "C", "B"], guaranteed := true, commission := 17 + 26,
           bestSplit := 1 } : RouteOption).path = [hubA.name, C.name, hubB.name] ∧
        (hubA.hasCommonCorrespondent hubB = true → ∃ c s,
          findMinCostWithSplits exTie exTie.sourceBank exTie.destinationBank exTie.amount =
            .ok (c, s) ∧ (17 : ℚ) + 26 < c) ∧
        (∀ k2 C2, (k2, C2) ∈ exTie.banks → k2 < k → k2 ≠ hubA.name → k2 ≠ hubB.name →
          hubA.hasCommonCorrespondent C2 = true → C2.hasCommonCorrespondent hubB = true →
          ∃ c1 s1 c2 s2,
            findMinCostWithSplits exTie hubA.name C2.name exTie.amount = .ok (c1, s1) ∧
            findMinCostWithSplits exTie C2.name hubB.name exTie.amount = .ok (c2, s2) ∧
            (17 : ℚ) + 26 < c1 + c2)) :=
  ⟨(findBestRouteWithSplits_tie_break exTieDirect hubA hubB _ exTieDirect_ordered
      exTieDirect_source exTieDirect_destination exTieDirect_result).1 43 1 (by decide)
      exTieDirect_split_A_B (le_refl _),
   (findBestRouteWithSplits_tie_break exTie hubA hubB _ exTie_ordered
      exTie_source exTie_destination exTie_result).2 rfl⟩

/-! ## Witnesses and the sentinel -/

/-- C11 at the example banks: `A` and `B` both list `C`, hence share a correspondent;
`A` lists `C` and `C` lists `A`, yet the two share none. -/
theorem hasCommonCorrespondent_iff_common_name_witness :
    exA.hasCommonCorrespondent exB = true ∧
    ¬ (∃ c, c ∈ exA.correspondents ∧ c ∈ exC.correspondents) :=
  ⟨(hasCommonCorrespondent_iff_common_name exA exB).1.mpr
      ⟨"C", by simp [exA], by simp [exB]⟩,
   fun h => absurd ((hasCommonCorrespondent_iff_common_name exA exC).1.mpr h)
      (by rw [exProblem_adjacency.2.1]; simp)⟩

/-- C17 at the hub request, whose map is ordered and stores each bank under its name. -/
theorem findBestRouteWithSplits_path_shape_witness :
    ∃ A B, bankAt exHub.banks exHub.sourceBank = .ok A ∧
      bankAt exHub.banks exHub.destinationBank = .ok B ∧
      ((["A", "C", "B"] = [exHub.sourceBank, exHub.destinationBank] ∧
          A.hasCommonCorrespondent B = true) ∨
       (∃ c C, ["A", "C", "B"] = [exHub.sourceBank, c, exHub.destinationBank] ∧
          bankAt exHub.banks c = .ok C ∧ c ≠ exHub.sourceBank ∧ c ≠ exHub.destinationBank ∧
          A.hasCommonCorrespondent C = true ∧ C.hasCommonCorrespondent B = true)) :=
  findBestRouteWithSplits_path_shape exHub _ exHub_ordered
    (by
      intro kb hkb
      have hcases : kb = ("A", hubA) ∨ kb = ("B", hubB) ∨ kb = ("C", hubC) := by
        simpa [exHub] using hkb
      rcases hcases with rfl | rfl | rfl <;> rfl)
    exHub_result rfl

/-- C18 at the hub request (feasible) and at `exIsolated` (infeasible). -/
theorem findBestRouteWithSplits_bestSplit_range_witness :
    (1 ≤ (1 : Nat) ∧ (1 : Nat) ≤ 10 ∧ (true = false → (1 : Nat) = 1)) ∧
    (1 ≤ (1 : Nat) ∧ (1 : Nat) ≤ 10 ∧ (false = false → (1 : Nat) = 1)) :=
  ⟨findBestRouteWithSplits_bestSplit_range exHub _ exHub_result,
   findBestRouteWithSplits_bestSplit_range exIsolated _ exIsolated_result.2⟩

/-- C19 at `exSchedule` (thresholds 50, 100) and the amount 60. -/
theorem calculate_sorted_tightest_witness :
    ∃ t ∈ exSchedule.tiers, (60 : ℚ) ≤ t.threshold ∧
      (∀ u ∈ exSchedule.tiers, (60 : ℚ) ≤ u.threshold → t.threshold ≤ u.threshold) ∧
      exSchedule.calculate 60 = .ok (t.fixedFee + 60 * t.percent) :=
  calculate_sorted_tightest exSchedule 60
    (by simp [exSchedule]; norm_num)
    ⟨⟨100, 2, 5 / 1000⟩, by simp [exSchedule], by norm_num⟩

/-- Without sortedness the tightest band is not found: on `exUnsorted` the amount 40 is
priced by the tier with threshold 100, although the tier with threshold 50 contains
it. -/
theorem calculate_unsorted_example :
    exUnsorted.calculate 40 = .ok (2 + 40 * (5 / 1000)) := by
  simp [exUnsorted, PiecewiseCommission.calculate, PiecewiseCommission.calculateLoop]
  norm_num

theorem exSentinel_split :
    findMinCostWithSplits exSentinel "A" "B" 1000 = .ok (DBL_MAX, 1) := by
  have hleg : ∀ x, calculateTotalCommission exSentinel "A" "B" x =
      .ok (DBL_MAX + x * 0 + 0 + (0 + x * 0)) := by
    intro x
    have h := calculateTotalCommission_ok exSentinel "A" "B" x maxA maxB _ _
      (by simp [bankAt, exSentinel]) (by simp [bankAt, exSentinel])
      (calculate_single_tier maxA.outputCommission ⟨1000, DBL_MAX, 0⟩ x rfl)
      (calculate_single_tier maxB.inputCommission ⟨1000, 0, 0⟩ x rfl)
    rw [h]
    simp [maxA, maxB]
  obtain ⟨c, s, hrun, hle, hmin, hcase⟩ :=
    findMinCostWithSplits_spec exSentinel "A" "B" 1000
      (fun k => (k : ℚ) * (DBL_MAX + 1000 / (k : ℚ) * 0 + 0 + (0 + 1000 / (k : ℚ) * 0)))
      (fun k => partsLoop_product exSentinel "A" "B" _ hleg _ k)
  have hpos : (0 : ℚ) < DBL_MAX := by norm_num [DBL_MAX]
  rcases hcase with ⟨hc, hs, _⟩ | ⟨h1, _, hc, hlt, _⟩
  · rw [hrun, hc, hs]
  · exfalso
    rw [hc] at hlt
    have hk : (1 : ℚ) ≤ (s : ℚ) := by exact_mod_cast h1
    simp only [mul_zero, add_zero] at hlt
    nlinarith

/-- The request of `exSentinel` is feasible and costs exactly the sentinel. -/
theorem exSentinel_result :
    findBestRouteWithSplits exSentinel =
      .ok { path := ["A", "B"], guaranteed := true, commission := DBL_MAX,
            bestSplit := 1 } := by
  have hA : bankAt exSentinel.banks exSentinel.sourceBank = .ok maxA := by
    simp [bankAt, exSentinel]
  have hB : bankAt exSentinel.banks exSentinel.destinationBank = .ok maxB := by
    simp [bankAt, exSentinel]
  have hAB : maxA.hasCommonCorrespondent maxB = true := by decide
  have hd : directCandidate exSentinel maxA maxB =
      .ok [{ path := ["A", "B"], guaranteed := true, commission := DBL_MAX,
             bestSplit := 1 }] := by
    have h : findMinCostWithSplits exSentinel exSentinel.sourceBank
        exSentinel.destinationBank exSentinel.amount = .ok (DBL_MAX, 1) := exSentinel_split
    simp only [directCandidate, hAB, if_true, h, bind, Except.bind, pure, Except.pure]
    rfl
  have hh : hopCandidates exSentinel maxA maxB exSentinel.banks = .ok [] := by
    apply hopCandidates_nil
    intro kc hkc h1 h2
    have hcases : kc = ("A", maxA) ∨ kc = ("B", maxB) := by
      simpa [exSentinel] using hkc
    rcases hcases with rfl | rfl
    · exact absurd rfl h1
    · exact absurd rfl h2
  have hc : candidates exSentinel =
      .ok [{ path := ["A", "B"], guaranteed := true, commission := DBL_MAX,
             bestSplit := 1 }] := by
    simp only [candidates, hA, hB, hd, hh, bind, Except.bind, pure, Except.pure,
      List.append_nil]
  rw [findBestRouteWithSplits_of_candidates exSentinel _ hc]
  rfl

/-- C14, as stated, fails: the commission of the infeasible result of `exIsolated` is the
rational number `(2^53 - 1) * 2^971`, and the feasible route returned for
`exSentinel` has the same commission. -/
theorem sentinel_counterexample :
    (∃ r, findBestRouteWithSplits exIsolated = .ok r ∧ r.guaranteed = false ∧
      r.commission = (2 ^ 53 - 1) * 2 ^ 971) ∧
    (∃ r, findBestRouteWithSplits exSentinel = .ok r ∧ r.guaranteed = true ∧
      r.path = ["A", "B"] ∧ r.commission = (2 ^ 53 - 1) * 2 ^ 971) :=
  ⟨⟨_, exIsolated_result.2, rfl, rfl⟩, ⟨_, exSentinel_result, rfl, rfl, rfl⟩⟩

/-- C14, amended: with no candidate route the returned commission is the sentinel
`DBL_MAX`, the largest finite `double`, and `guaranteed` is false; a result chosen
among candidates always has `guaranteed` true, so the flag, not the commission,
tells the two apart. -/
theorem findBestRouteWithSplits_sentinel (p : TransferProblem) (A B : Bank)
    (hA : bankAt p.banks p.sourceBank = .ok A) (hB : bankAt p.banks p.destinationBank = .ok B) :
    ((A.hasCommonCorrespondent B = false ∧
        ∀ kc ∈ p.banks, kc.1 ≠ A.name → kc.1 ≠ B.name →
          ¬ (A.hasCommonCorrespondent kc.2 = true ∧ kc.2.hasCommonCorrespondent B = true)) →
      ∃ r, findBestRouteWithSplits p = .ok r ∧ r.guaranteed = false ∧
        r.commission = DBL_MAX ∧ DBL_MAX = (2 ^ 53 - 1) * 2 ^ 971) ∧
    (∀ cs r, candidates p = .ok cs → cs ≠ [] → findBestRouteWithSplits p = .ok r →
      r.guaranteed = true) := by
  constructor
  · rintro ⟨hdirect, hhop⟩
    have hc : candidates p = .ok [] := by
      simp [candidates, hA, hB, directCandidate, hdirect,
        hopCandidates_nil p A B p.banks hhop, bind, Except.bind, pure, Except.pure]
    exact ⟨_, findBestRouteWithSplits_of_candidates p [] hc, rfl, rfl, rfl⟩
  · intro cs r hc hne hr
    rw [findBestRouteWithSplits_of_candidates p cs hc] at hr
    cases cs with
    | nil => exact absurd rfl hne
    | cons c0 rest =>
      simp only [minElement, Except.ok.injEq] at hr
      rw [← hr]
      exact candidates_guaranteed p A B _ hA hB hc _ (minElementLoop_mem rest c0)

/-- C14 amended, at `exIsolated` (no candidate: sentinel commission, flag false) and at
the hub request (two candidates: flag true). -/
theorem findBestRouteWithSplits_sentinel_witness :
    (∃ r, findBestRouteWithSplits exIsolated = .ok r ∧ r.guaranteed = false ∧
        r.commission = DBL_MAX ∧ DBL_MAX = (2 ^ 53 - 1) * 2 ^ 971) ∧
    ({ path := ["A", "C", "B"], guaranteed := true, commission := 17 + 26,
       bestSplit := 1 } : RouteOption).guaranteed = true :=
  ⟨(findBestRouteWithSplits_sentinel exIsolated exA exD
      (by simp [bankAt, exIsolated]) (by simp [bankAt, exIsolated])).1
      ⟨by decide, by
        intro kc hkc h1 h2
        have hcases : kc = ("A", exA) ∨ kc = ("C", exC) ∨ kc = ("D", exD) := by
          simpa [exIsolated] using hkc
        rcases hcases with rfl | rfl | rfl
        · exact absurd rfl h1
        · have : exC.hasCommonCorrespondent exD = false := by decide
          simp [this]
        · exact absurd rfl h2⟩,
   (findBestRouteWithSplits_sentinel exHub hubA hubB exHub_source exHub_destination).2
      _ _ exHub_candidates (by simp) exHub_result⟩

/-! ## The split search in binary64 arithmetic -/

namespace IEEE

/-- With the per-part leg cost `c`, the inner loop is the repeated rounded addition of
`c`. -/
theorem partsLoop_repeatedSum (p : TransferProblem) (fromBank toBank : String)
    (partAmount c : ℚ)
    (hc : calculateTotalCommission p fromBank toBank partAmount = .ok c) (iters : Nat) :
    ∀ acc : ℚ, partsLoop p fromBank toBank partAmount iters acc = repeatedSum c iters acc := by
  induction iters with
  | zero => intro acc; rfl
  | succ n ih =>
    intro acc
    cases ha : fadd acc c with
    | error e => simp [partsLoop, repeatedSum, hc, ha, bind, Except.bind]
    | ok v => simp [partsLoop, repeatedSum, hc, ha, bind, Except.bind, ih]

/-- A computed candidate total for `parts ≥ 1` is the repeated rounded addition of the leg
cost at the rounded quotient `totalAmount / parts`. -/
theorem candidateTotal_inv (p : TransferProblem) (fromBank toBank : String)
    (totalAmount v : ℚ) (k : Nat) (hk : 1 ≤ k)
    (h : candidateTotal p fromBank toBank totalAmount k = .ok v) :
    ∃ partAmount leg, fdiv totalAmount (k : ℚ) = .ok partAmount ∧
      calculateTotalCommission p fromBank toBank partAmount = .ok leg ∧
      repeatedSum leg k 0 = .ok v := by
  cases hd : fdiv totalAmount (k : ℚ) with
  | error e => simp [candidateTotal, hd, bind, Except.bind] at h
  | ok pa =>
    simp only [candidateTotal, hd, bind, Except.bind] at h
    cases hl : calculateTotalCommission p fromBank toBank pa with
    | error e =>
      obtain ⟨n, rfl⟩ : ∃ n, k = n + 1 := ⟨k - 1, by omega⟩
      simp [partsLoop, hl, bind, Except.bind] at h
    | ok leg =>
      rw [partsLoop_repeatedSum p fromBank toBank pa leg hl k 0] at h
      exact ⟨pa, leg, rfl, hl, h⟩

/-- Invariant of the outer loop over the candidate totals `cost k` of the split counts it
scans. -/
theorem splitLoop_rounded_spec (p : TransferProblem) (fromBank toBank : String)
    (totalAmount : ℚ) (cost : Nat → ℚ) :
    ∀ (remaining parts : Nat) (bestCost : ℚ) (bestSplit : Nat),
      (∀ k, parts ≤ k → k < parts + remaining →
        candidateTotal p fromBank toBank totalAmount k = .ok (cost k)) →
      ∃ c s, splitLoop p fromBank toBank totalAmount remaining parts (bestCost, bestSplit) =
          .ok (c, s) ∧
        c ≤ bestCost ∧
        (∀ k, parts ≤ k → k < parts + remaining → c ≤ cost k) ∧
        ((c = bestCost ∧ s = bestSplit ∧
            ∀ k, parts ≤ k → k < parts + remaining → bestCost ≤ cost k) ∨
         (parts ≤ s ∧ s < parts + remaining ∧ c = cost s ∧ c < bestCost ∧
            ∀ k, parts ≤ k → k < s → c < cost k)) := by
  intro remaining
  induction remaining with
  | zero =>
    intro parts bestCost bestSplit _
    refine ⟨bestCost, bestSplit, by simp [splitLoop], le_refl _, ?_, Or.inl ⟨rfl, rfl, ?_⟩⟩
    · intro k h1 h2; omega
    · intro k h1 h2; omega
  | succ n ih =>
    intro parts bestCost bestSplit hcost
    have hhere := hcost parts (le_refl _) (by omega)
    have hlater : ∀ k, parts + 1 ≤ k → k < parts + 1 + n →
        candidateTotal p fromBank toBank totalAmount k = .ok (cost k) :=
      fun k h1 h2 => hcost k (by omega) (by omega)
    by_cases hlt : cost parts < bestCost
    · obtain ⟨c, s, hrun, hle, hmin, hcase⟩ := ih (parts + 1) (cost parts) parts hlater
      refine ⟨c, s, ?_, le_of_lt (lt_of_le_of_lt hle hlt), ?_, Or.inr ?_⟩
      · simp only [splitLoop, hhere, bind, Except.bind, hlt, if_true, hrun]
      · intro k h1 h2
        rcases Nat.eq_or_lt_of_le h1 with rfl | h3
        · exact hle
        · exact hmin k h3 (by omega)
      · rcases hcase with ⟨hc, hs, _⟩ | ⟨h1, h2, hc, hlt2, hfirst⟩
        · refine ⟨by omega, by omega, by rw [hc, hs], by rw [hc]; exact hlt, ?_⟩
          intro k h1 h2; omega
        · refine ⟨by omega, by omega, hc, lt_trans hlt2 hlt, ?_⟩
          intro k h3 h4
          rcases Nat.eq_or_lt_of_le h3 with rfl | h5
          · exact hlt2
          · exact hfirst k h5 h4
    · obtain ⟨c, s, hrun, hle, hmin, hcase⟩ := ih (parts + 1) bestCost bestSplit hlater
      have hge : bestCost ≤ cost parts := not_lt.mp hlt
      refine ⟨c, s, ?_, hle, ?_, ?_⟩
      · simp only [splitLoop, hhere, bind, Except.bind, hlt, if_false, hrun]
      · intro k h1 h2
        rcases Nat.eq_or_lt_of_le h1 with rfl | h3
        · exact le_trans hle hge
        · exact hmin k h3 (by omega)
      · rcases hcase with ⟨hc, hs, hall⟩ | ⟨h1, h2, hc, hlt2, hfirst⟩
        · refine Or.inl ⟨hc, hs, ?_⟩
          intro k h1 h2
          rcases Nat.eq_or_lt_of_le h1 with rfl | h3
          · exact hge
          · exact hall k h3 (by omega)
        · refine Or.inr ⟨by omega, by omega, hc, hlt2, ?_⟩
          intro k h3 h4
          rcases Nat.eq_or_lt_of_le h3 with rfl | h5
          · exact lt_of_lt_of_le hlt2 hge
          · exact hfirst k h5 h4

/-- The result of `findMinCostWithSplits` over the ten candidate totals, the first of them
below the sentinel: the least total, at the first split count reaching it. -/
theorem findMinCostWithSplits_rounded_spec (p : TransferProblem) (fromBank toBank : String)
    (totalAmount : ℚ) (cand : Nat → ℚ)
    (hcand : ∀ k, 1 ≤ k → k ≤ 10 →
      candidateTotal p fromBank toBank totalAmount k = .ok (cand k))
    (hlt : cand 1 < DBL_MAX) :
    ∃ cost parts, findMinCostWithSplits p fromBank toBank totalAmount = .ok (cost, parts) ∧
      1 ≤ parts ∧ parts ≤ 10 ∧ cost = cand parts ∧
      (∀ k, 1 ≤ k → k ≤ 10 → cost ≤ cand k) ∧
      (∀ k, 1 ≤ k → k < parts → cost < cand k) := by
  obtain ⟨c, s, hrun, _, hmin, hcase⟩ :=
    splitLoop_rounded_spec p fromBank toBank totalAmount cand 10 1 DBL_MAX 1
      (fun k h1 h2 => hcand k h1 (by omega))
  rcases hcase with ⟨_, _, hall⟩ | ⟨h1, h2, hc, _, hfirst⟩
  · exact absurd hlt (not_lt.mpr (hall 1 (le_refl 1) (by norm_num)))
  · exact ⟨c, s, hrun, h1, by omega, hc, fun k h3 h4 => hmin k h3 (by omega), hfirst⟩

/-- C3, as stated, fails on the program's arithmetic: for the leg `S → R` of
`unitProblem` and the amount 1 the program returns the cost `1 - 2^-52` with 7 parts.
That cost is the seven-fold rounded sum of the leg cost `v` at the part amount
`fl(1 / 7)`, not the product `7 * v`, which is `1 - 2^-54` exactly and 1 as a
`double`; the unsplit total is 1. -/
theorem split_product_counterexample :
    findMinCostWithSplits unitProblem "S" "R" 1 = .ok (1 - 1 / 2 ^ 52, 7) ∧
    fdiv 1 7 = .ok (2573485501354569 / 2 ^ 54) ∧
    calculateTotalCommission unitProblem "S" "R" (2573485501354569 / 2 ^ 54) =
      .ok (2573485501354569 / 2 ^ 54) ∧
    repeatedSum (2573485501354569 / 2 ^ 54) 7 0 = .ok (1 - 1 / 2 ^ 52) ∧
    (7 : ℚ) * (2573485501354569 / 2 ^ 54) = 1 - 1 / 2 ^ 54 ∧
    fmul 7 (2573485501354569 / 2 ^ 54) = .ok 1 ∧
    candidateTotal unitProblem "S" "R" 1 1 = .ok 1 := by
  decide!

/-- C3, amended: when the ten candidate totals are computed (finite doubles) and lie below
the sentinel, `findMinCostWithSplits` returns `(cost, parts)` with `cost` the least of
the ten totals and `parts` the smallest split count in 1..10 reaching it; the total
for `k` parts is the `k`-fold rounded addition, from `0.0`, of the leg cost at the
rounded quotient `totalAmount / k`. -/
theorem findMinCostWithSplits_rounded_contract (p : TransferProblem)
    (fromBank toBank : String) (totalAmount : ℚ) (cand : Nat → ℚ)
    (hcand : ∀ k, 1 ≤ k → k ≤ 10 →
      candidateTotal p fromBank toBank totalAmount k = .ok (cand k))
    (hbound : ∀ k, 1 ≤ k → k ≤ 10 → cand k < DBL_MAX) :
    (∀ k : Nat, 1 ≤ k → k ≤ 10 → ∃ partAmount leg, fdiv totalAmount (k : ℚ) = .ok partAmount ∧
        calculateTotalCommission p fromBank toBank partAmount = .ok leg ∧
        repeatedSum leg k 0 = .ok (cand k)) ∧
    ∃ cost parts, findMinCostWithSplits p fromBank toBank totalAmount = .ok (cost, parts) ∧
      1 ≤ parts ∧ parts ≤ 10 ∧ cost = cand parts ∧
      (∀ k, 1 ≤ k → k ≤ 10 → cost ≤ cand k) ∧
      (∀ k, 1 ≤ k → k < parts → cost < cand k) :=
  ⟨fun k h1 h2 => candidateTotal_inv p fromBank toBank totalAmount (cand k) k h1 (hcand k h1 h2),
   findMinCostWithSplits_rounded_spec p fromBank toBank totalAmount cand hcand
     (hbound 1 (le_refl 1) (by norm_num))⟩

/-- C3 amended, at the leg `S → R` of `unitProblem` and the amount 1, whose ten candidate
totals are `unitCand`. -/
theorem findMinCostWithSplits_rounded_contract_witness :
    (∀ k : Nat, 1 ≤ k → k ≤ 10 → ∃ partAmount leg, fdiv 1 (k : ℚ) = .ok partAmount ∧
        calculateTotalCommission unitProblem "S" "R" partAmount = .ok leg ∧
        repeatedSum leg k 0 = .ok (unitCand k)) ∧
    ∃ cost parts, findMinCostWithSplits unitProblem "S" "R" 1 = .ok (cost, parts) ∧
      1 ≤ parts ∧ parts ≤ 10 ∧ cost = unitCand parts ∧
      (∀ k, 1 ≤ k → k ≤ 10 → cost ≤ unitCand k) ∧
      (∀ k, 1 ≤ k → k < parts → cost < unitCand k) :=
  findMinCostWithSplits_rounded_contract unitProblem "S" "R" 1 unitCand
    (by intro k h1 h2; interval_cases k <;> decide!)
    (by intro k h1 h2; interval_cases k <;> decide!)

end IEEE

/-! ## Completeness of candidate generation -/

/-- Every map entry other than source and destination that is adjacent to both has its
candidate in the generated one-hop list. -/
theorem hopCandidates_complete (p : TransferProblem) (A B : Bank) :
    ∀ (l : List (String × Bank)) (hs : List RouteOption),
      hopCandidates p A B l = .ok hs → ∀ kc ∈ l, kc.1 ≠ A.name → kc.1 ≠ B.name →
      A.hasCommonCorrespondent kc.2 = true → kc.2.hasCommonCorrespondent B = true →
      ∃ c1 s1 c2 s2,
        findMinCostWithSplits p A.name kc.2.name p.amount = .ok (c1, s1) ∧
        findMinCostWithSplits p kc.2.name B.name p.amount = .ok (c2, s2) ∧
        ({ path := [A.name, kc.2.name, B.name], guaranteed := true,
           commission := c1 + c2, bestSplit := min s1 s2 } : RouteOption) ∈ hs := by
  intro l
  induction l with
  | nil => intro hs _ kc hkc; simp at hkc
  | cons e rest ih =>
    intro hs h kc hkc e1 e2 e3 e4
    obtain ⟨name, C⟩ := e
    rcases hopCandidates_cons_inv p A B name C rest hs h with
      ⟨_, _, _, _, c1, s1, c2, s2, more, h1, h2, hmore, rfl⟩ | ⟨hno, hrest⟩
    · rcases List.mem_cons.mp hkc with rfl | hkc
      · exact ⟨c1, s1, c2, s2, h1, h2, List.mem_cons_self _ _⟩
      · obtain ⟨d1, t1, d2, t2, g1, g2, gmem⟩ := ih more hmore kc hkc e1 e2 e3 e4
        exact ⟨d1, t1, d2, t2, g1, g2, List.mem_cons_of_mem _ gmem⟩
    · rcases List.mem_cons.mp hkc with rfl | hkc
      · exact absurd ⟨e1, e2, e3, e4⟩ hno
      · exact ih hs hrest kc hkc e1 e2 e3 e4

namespace IEEE

/-- The percentage of `dblC` is the `double` nearest to `0.005`. -/
theorem dblC_percent : roundNearestEven (5 / 1000) = 5764607523034235 / 2 ^ 60 := by
  decide!

end IEEE

end Transfer
